import Mathlib

/-!
Verification of the BigMart data-science toolkit.

The repository manipulates pandas DataFrames through small "strategy"
classes.  We embed the relevant fragment shallowly: a table is a list of
named columns, a column is a list of cell values, and each strategy's
`transform` / `apply_transformation` method becomes a Lean function on
tables.  Machine floats are modelled by exact rationals (and by reals
where a square root is involved); missing values (NaN) are a dedicated
`null` constructor.
-/

namespace BigMart

/-- A cell of a DataFrame: a numeric value, a string, or a missing value
(pandas NaN). -/
inductive Val where
  | num (q : ℚ)
  | str (s : String)
  | null
  deriving DecidableEq, Repr

/-- A DataFrame: an ordered list of named columns. -/
abbrev Table := List (String × List Val)

/-- Column names of a table, in order. -/
def Table.colNames (t : Table) : List String := t.map (·.1)

/-- `df[c]`: the values of column `c` (first column with that name;
empty if absent — pandas would raise a KeyError, our theorems carry
presence hypotheses instead). -/
def Table.getCol (t : Table) (c : String) : List Val :=
  (t.lookup c).getD []

/-- `df[c] = v`: replace column `c` if present, else append it at the
end (pandas column assignment). -/
def Table.setCol (t : Table) (c : String) (v : List Val) : Table :=
  if c ∈ t.colNames then
    t.map (fun p => if p.1 = c then (c, v) else p)
  else
    t ++ [(c, v)]

/-- `df.drop(columns=cs)`: remove the listed columns. -/
def Table.dropCols (t : Table) (cs : List String) : Table :=
  t.filter (fun p => decide (p.1 ∉ cs))

/-! ### Basic column-access lemmas -/

theorem Table.colNames_cons (p : String × List Val) (t : Table) :
    Table.colNames (p :: t) = p.1 :: Table.colNames t := rfl

theorem Table.lookup_map_set (t : Table) (c : String) (v : List Val)
    (h : c ∈ t.colNames) :
    (t.map (fun p => if p.1 = c then (c, v) else p)).lookup c = some v := by
  induction t with
  | nil => simp [Table.colNames] at h
  | cons p t ih =>
    by_cases hp : p.1 = c
    · rw [List.map_cons, if_pos hp]
      simp [List.lookup]
    · have hc : c ∈ Table.colNames t := by
        rw [Table.colNames_cons] at h
        rcases List.mem_cons.1 h with h' | h'
        · exact absurd h'.symm hp
        · exact h'
      rw [List.map_cons, if_neg hp, List.lookup]
      rw [show (c == p.1) = false from beq_eq_false_iff_ne.2 (Ne.symm hp)]
      exact ih hc

theorem Table.lookup_map_set_ne (t : Table) (c c' : String) (v : List Val)
    (h : c' ≠ c) :
    (t.map (fun p => if p.1 = c then (c, v) else p)).lookup c' = t.lookup c' := by
  induction t with
  | nil => simp
  | cons p t ih =>
    by_cases hp : p.1 = c
    · rw [List.map_cons, if_pos hp, List.lookup, List.lookup]
      rw [show (c' == c) = false by simp [h],
        show (c' == p.1) = false by simp [hp, h]]
      exact ih
    · rw [List.map_cons, if_neg hp, List.lookup, List.lookup]
      cases hb : c' == p.1 with
      | true => rfl
      | false => exact ih

theorem Table.lookup_eq_none (t : Table) (c : String)
    (h : c ∉ t.colNames) : t.lookup c = none := by
  induction t with
  | nil => simp
  | cons p t ih =>
    rw [Table.colNames_cons] at h
    have hp : c ≠ p.1 := fun hc => h (List.mem_cons.2 (Or.inl hc))
    have ht : c ∉ Table.colNames t := fun hc => h (List.mem_cons.2 (Or.inr hc))
    rw [List.lookup, show (c == p.1) = false from beq_eq_false_iff_ne.2 hp]
    exact ih ht

theorem Table.lookup_append (t₁ t₂ : Table) (c : String) :
    (t₁ ++ t₂).lookup c =
      match t₁.lookup c with
      | some v => some v
      | none => t₂.lookup c := by
  induction t₁ with
  | nil => simp
  | cons p t ih =>
    by_cases hp : c = p.1
    · simp [List.lookup, hp]
    · simpa [List.lookup, show (c == p.1) = false by simp [hp]] using ih

theorem Table.lookup_setCol_self (t : Table) (c : String) (v : List Val) :
    (t.setCol c v).lookup c = some v := by
  unfold Table.setCol
  split
  · exact Table.lookup_map_set t c v (by assumption)
  · rw [Table.lookup_append, Table.lookup_eq_none t c (by assumption)]
    simp [List.lookup]

theorem Table.getCol_setCol_self (t : Table) (c : String) (v : List Val) :
    (t.setCol c v).getCol c = v := by
  simp [Table.getCol, Table.lookup_setCol_self]

theorem Table.lookup_setCol_ne (t : Table) (c c' : String) (v : List Val)
    (h : c' ≠ c) : (t.setCol c v).lookup c' = t.lookup c' := by
  unfold Table.setCol
  split
  · exact Table.lookup_map_set_ne t c c' v h
  · rw [Table.lookup_append]
    cases hl : t.lookup c' with
    | some w => rfl
    | none => simp [List.lookup, show (c' == c) = false by simp [h]]

theorem Table.lookup_dropCols (t : Table) (cs : List String) (c : String)
    (h : c ∉ cs) : (t.dropCols cs).lookup c = t.lookup c := by
  unfold Table.dropCols
  induction t with
  | nil => simp
  | cons p t ih =>
    rw [List.filter_cons]
    by_cases hp : p.1 ∈ cs
    · rw [if_neg (by simp [hp]), ih, List.lookup,
        show (c == p.1) = false from
          beq_eq_false_iff_ne.2 (fun hc => h (hc ▸ hp))]
    · rw [if_pos (by simp [hp]), List.lookup, List.lookup]
      cases c == p.1 with
      | true => rfl
      | false => exact ih

theorem Table.not_mem_colNames_dropCols (t : Table) (cs : List String)
    (c : String) (h : c ∈ cs) : c ∉ (t.dropCols cs).colNames := by
  unfold Table.dropCols Table.colNames
  intro hc
  simp only [List.mem_map] at hc
  obtain ⟨p, hp, hpc⟩ := hc
  have := List.of_mem_filter hp
  simp at this
  exact this (hpc ▸ h)

/-!
### C8: MultivariateAnalyzer context (multiveriate_analysis.py)

`execute_analysis` raises `ValueError("Strategy not set. ...")` when
`self.strategy is None`, before any analysis runs; otherwise it calls
`self.strategy.analyze(df, ...)`.
-/

/-- The `MultivariateAnalyzer` context: it holds an optional strategy.
A strategy is abstracted as a function from the table to its analysis
output. -/
structure MultivariateAnalyzer (α : Type) where
  strategy : Option (Table → α)

/-- `set_strategy`. -/
def MultivariateAnalyzer.setStrategy (a : MultivariateAnalyzer α)
    (s : Table → α) : MultivariateAnalyzer α :=
  { a with strategy := some s }

/-- `execute_analysis`: fail with the configuration error when no
strategy is set, otherwise delegate to the strategy. -/
def MultivariateAnalyzer.executeAnalysis (a : MultivariateAnalyzer α)
    (df : Table) : Except String α :=
  match a.strategy with
  | none => .error "Strategy not set. Please set a strategy before executing analysis."
  | some f => .ok (f df)

/-- Claim C8: invoking `MultivariateAnalyzer.execute_analysis` with no
strategy set raises the "strategy not set" configuration error before
any analysis runs; with a strategy set it delegates to the strategy
without any error from the context itself. -/
theorem C8_executeAnalysis_strategy_not_set {α : Type}
    (a : MultivariateAnalyzer α) (df : Table) :
    (a.strategy = none →
      a.executeAnalysis df =
        .error "Strategy not set. Please set a strategy before executing analysis.") ∧
    (∀ f, a.strategy = some f → a.executeAnalysis df = .ok (f df)) := by
  constructor
  · intro h; simp [MultivariateAnalyzer.executeAnalysis, h]
  · intro f h; simp [MultivariateAnalyzer.executeAnalysis, h]

/-- Witness for C8 at a concrete analyzer and table. -/
theorem C8_executeAnalysis_strategy_not_set_witness :
    (MultivariateAnalyzer.executeAnalysis (α := ℕ) ⟨none⟩ [] =
      .error "Strategy not set. Please set a strategy before executing analysis.") ∧
    (MultivariateAnalyzer.executeAnalysis (α := ℕ) ⟨some (fun _ => 7)⟩ [] = .ok 7) :=
  ⟨(C8_executeAnalysis_strategy_not_set ⟨none⟩ []).1 rfl,
   (C8_executeAnalysis_strategy_not_set ⟨some (fun _ => 7)⟩ []).2 _ rfl⟩

/-!
### C3: CSVDataIngestor.ingest (datadownloader.py)

The method lists the directory, filters names ending in ".csv", raises
`FileNotFoundError` when none is found, prints a warning when more than
one is found, and reads the first CSV file (in listing order) into a
DataFrame.  The filesystem listing is a list of file names; CSV parsing
(pandas `read_csv`, external to the repository) is a parameter.
-/

/-- Python `f.endswith(".csv")`, evaluated on the file name's
characters. -/
def isCsv (f : String) : Bool := (".csv".toList).isSuffixOf f.toList

/-- `CSVDataIngestor.ingest`: returns the "multiple CSV files" warning
flag together with the parsed table, or the not-found error. -/
def ingest (readCsv : String → Table) (directoryPath : String)
    (files : List String) : Except String (Bool × Table) :=
  let csvFiles := files.filter isCsv
  match csvFiles with
  | [] => .error "No CSV file found in the directory."
  | f :: rest =>
      .ok (decide (1 < rest.length + 1), readCsv (directoryPath ++ "/" ++ f))

/-- Claim C3: `ingest` on a directory with zero CSV files fails with the
not-found error; with two or more CSV files it sets the warning flag and
parses the first CSV file in directory-listing order. -/
theorem C3_ingest_csv_selection (readCsv : String → Table)
    (directoryPath : String) (files : List String) :
    ((files.filter isCsv) = [] →
      ingest readCsv directoryPath files =
        .error "No CSV file found in the directory.") ∧
    (∀ f, 2 ≤ (files.filter isCsv).length →
      files.find? isCsv = some f →
      ingest readCsv directoryPath files =
        .ok (true, readCsv (directoryPath ++ "/" ++ f))) := by
  constructor
  · intro h
    simp [ingest, h]
  · intro f hlen hfind
    have hhead : (files.filter isCsv).head? = some f := by
      rw [List.filter_head?, hfind]
    match hcsv : files.filter isCsv with
    | [] => simp [hcsv] at hhead
    | g :: rest =>
      have hg : g = f := by
        rw [hcsv] at hhead; simpa using hhead
      rw [hcsv] at hlen
      have hrest : 1 ≤ rest.length := by
        simpa [Nat.succ_le_succ_iff] using hlen
      simp only [ingest, hcsv, hg]
      simp [show 1 < rest.length + 1 by omega]

/-- Witness for C3: an empty directory errors; a directory listing with
two CSV files (plus a non-CSV file first) warns and picks the first CSV
in listing order. -/
theorem C3_ingest_csv_selection_witness :
    (ingest (fun _ => []) "d" ["readme.txt"] =
      .error "No CSV file found in the directory.") ∧
    (ingest (fun p => [(p, [])]) "d" ["readme.txt", "a.csv", "b.csv"] =
      .ok (true, [("d/a.csv", [])])) := by
  constructor
  · exact (C3_ingest_csv_selection (fun _ => []) "d" ["readme.txt"]).1 (by decide)
  · exact (C3_ingest_csv_selection (fun p => [(p, [])]) "d"
      ["readme.txt", "a.csv", "b.csv"]).2 "a.csv" (by decide) (by decide)

/-!
### C7: StandardizeValuesStrategy.transform (preprocess.py)

`df[target].replace(replacements, inplace=True)`: each cell equal to a
key of the replacement mapping becomes the mapped value, all other
cells are unchanged.  The Python dict is modelled as an association
list with distinct keys.
-/

/-- pandas `Series.replace(mapping)` on one cell. -/
def replaceVal (repl : List (Val × Val)) (v : Val) : Val :=
  (repl.lookup v).getD v

/-- `StandardizeValuesStrategy.transform`: replace values in the target
column according to the mapping. -/
def standardizeValuesTransform (target : String) (repl : List (Val × Val))
    (df : Table) : Table :=
  df.setCol target ((df.getCol target).map (replaceVal repl))

theorem lookup_of_mem_of_nodupKeys {l : List (Val × Val)} {v w : Val}
    (hn : (l.map Prod.fst).Nodup) (h : (v, w) ∈ l) : l.lookup v = some w := by
  induction l with
  | nil => simp at h
  | cons p t ih =>
    rcases List.mem_cons.1 h with h' | h'
    · rw [← h', List.lookup]
      simp
    · have hv : v ≠ p.1 := by
        intro hv
        have : p.1 ∈ t.map Prod.fst :=
          List.mem_map.2 ⟨(v, w), h', by rw [hv]⟩
        exact (List.nodup_cons.1 (by simpa using hn)).1 this
      rw [List.lookup, show (v == p.1) = false from beq_eq_false_iff_ne.2 hv]
      exact ih (List.nodup_cons.1 (by simpa using hn)).2 h'

theorem lookup_eq_none_of_not_mem_keys {l : List (Val × Val)} {v : Val}
    (h : v ∉ l.map Prod.fst) : l.lookup v = none := by
  induction l with
  | nil => rfl
  | cons p t ih =>
    have hv : v ≠ p.1 := fun hv => h (by simp [hv])
    rw [List.lookup, show (v == p.1) = false from beq_eq_false_iff_ne.2 hv]
    exact ih (fun hm => h (by simp at hm ⊢; exact Or.inr hm))

/-- Claim C7: value standardization maps each cell of the target column
through the replacement mapping: a cell equal to a mapping key becomes
the mapped value, any other cell is unchanged. -/
theorem C7_standardize_values (target : String) (repl : List (Val × Val))
    (df : Table) (hkeys : (repl.map Prod.fst).Nodup) :
    ((standardizeValuesTransform target repl df).getCol target =
      (df.getCol target).map (replaceVal repl)) ∧
    (∀ (i : ℕ) (v w : Val), (df.getCol target)[i]? = some v → (v, w) ∈ repl →
      ((standardizeValuesTransform target repl df).getCol target)[i]? = some w) ∧
    (∀ (i : ℕ) (v : Val), (df.getCol target)[i]? = some v → v ∉ repl.map Prod.fst →
      ((standardizeValuesTransform target repl df).getCol target)[i]? = some v) := by
  refine ⟨Table.getCol_setCol_self df target _, ?_, ?_⟩
  · intro i v w hv hm
    unfold standardizeValuesTransform
    rw [Table.getCol_setCol_self, List.getElem?_map, hv]
    simp [replaceVal, lookup_of_mem_of_nodupKeys hkeys hm]
  · intro i v hv hk
    unfold standardizeValuesTransform
    rw [Table.getCol_setCol_self, List.getElem?_map, hv]
    simp [replaceVal, lookup_eq_none_of_not_mem_keys hk]

/-- Witness for C7 at a concrete table and mapping: `LF` is mapped to
`Low Fat`, `Regular` (not a key) is unchanged. -/
theorem C7_standardize_values_witness :
    (((standardizeValuesTransform "Item_Fat_Content"
        [(.str "LF", .str "Low Fat")]
        [("Item_Fat_Content", [.str "LF", .str "Regular"])]).getCol
          "Item_Fat_Content")[0]? = some (.str "Low Fat")) ∧
    (((standardizeValuesTransform "Item_Fat_Content"
        [(.str "LF", .str "Low Fat")]
        [("Item_Fat_Content", [.str "LF", .str "Regular"])]).getCol
          "Item_Fat_Content")[1]? = some (.str "Regular")) :=
  ⟨(C7_standardize_values "Item_Fat_Content" _ _ (by decide)).2.1 0
      (.str "LF") (.str "Low Fat") (by decide) (by decide),
   (C7_standardize_values "Item_Fat_Content" _ _ (by decide)).2.2 1
      (.str "Regular") (by decide) (by decide)⟩

/-!
### C6: DeleteRowsWithMissingValuesStrategy.transform (preprocess.py)

`df = df[df[target].notna()]`: boolean-mask row selection.  A table is
column-major, so the row selection applies the target column's
non-null mask to every column.
-/

/-- `Series.notna()` as a boolean mask. -/
def notnaMask (col : List Val) : List Bool :=
  col.map (fun v => decide (v ≠ .null))

/-- `df[mask]` restricted to one column: keep the entries whose mask
position is true, in order. -/
def maskFilter (mask : List Bool) (col : List Val) : List Val :=
  ((mask.zip col).filter (·.1)).map (·.2)

/-- `DeleteRowsWithMissingValuesStrategy.transform`. -/
def deleteRowsTransform (target : String) (df : Table) : Table :=
  df.map (fun p => (p.1, maskFilter (notnaMask (df.getCol target)) p.2))

theorem maskFilter_notna (tcol col : List Val) :
    maskFilter (notnaMask tcol) col =
      ((tcol.zip col).filter (fun p => decide (p.1 ≠ Val.null))).map (·.2) := by
  induction tcol generalizing col with
  | nil => cases col <;> rfl
  | cons t ts ih =>
    cases col with
    | nil => rfl
    | cons c cs =>
      by_cases ht : t = Val.null
      · simpa [maskFilter, notnaMask, ht] using ih cs
      · simpa [maskFilter, notnaMask, ht] using ih cs

theorem maskFilter_notna_self (tcol : List Val) :
    maskFilter (notnaMask tcol) tcol = tcol.filter (fun v => decide (v ≠ Val.null)) := by
  induction tcol with
  | nil => rfl
  | cons t ts ih =>
    by_cases ht : t = Val.null
    · simpa [maskFilter, notnaMask, ht] using ih
    · simpa [maskFilter, notnaMask, ht] using ih

theorem lookup_map_snd (t : Table) (g : String → List Val → List Val)
    (c : String) :
    (t.map (fun p => (p.1, g p.1 p.2))).lookup c = (t.lookup c).map (g c) := by
  induction t with
  | nil => rfl
  | cons p ps ih =>
    rw [List.map_cons, List.lookup, List.lookup]
    cases hb : c == p.1 with
    | true =>
      have : c = p.1 := by simpa using hb
      simp [this]
    | false => exact ih

/-- Claim C6: row deletion keeps, for every column, exactly the entries
at positions where the target column is non-null, in their original
order and with their original values; the target column of the result
is its non-null filter. -/
theorem C6_delete_rows (target : String) (df : Table) :
    (deleteRowsTransform target df =
      df.map (fun p => (p.1,
        (((df.getCol target).zip p.2).filter
          (fun q => decide (q.1 ≠ Val.null))).map (·.2)))) ∧
    ((deleteRowsTransform target df).getCol target =
      (df.getCol target).filter (fun v => decide (v ≠ Val.null))) := by
  constructor
  · unfold deleteRowsTransform
    exact List.map_congr_left (fun p _ => by rw [maskFilter_notna])
  · show ((df.map (fun p =>
        (p.1, maskFilter (notnaMask (df.getCol target)) p.2))).lookup
          target).getD [] = _
    rw [lookup_map_snd df (fun _ col => maskFilter (notnaMask (df.getCol target)) col) target]
    cases hl : df.lookup target with
    | none =>
      have hg : Table.getCol df target = [] := by simp [Table.getCol, hl]
      rw [hg]
      rfl
    | some col =>
      have hg : Table.getCol df target = col := by
        show (df.lookup target).getD [] = col
        rw [hl]
        rfl
      rw [hg]
      show maskFilter (notnaMask col) col = _
      exact maskFilter_notna_self col

/-!
### C9: ValueCountsInspection.inspect (pre_inspection_analysis.py)

For each configured column name: if the column is present, print its
per-distinct-value frequencies; otherwise print a warning line and
continue with the remaining columns.  The printed output is modelled
as a list of messages, one per configured column.
-/

/-- One printed block of `ValueCountsInspection.inspect`. -/
inductive InspectMsg where
  | counts (c : String) (freqs : List (Val × ℕ))
  | missingWarn (c : String)
  deriving DecidableEq, Repr

/-- `Series.value_counts()`: each distinct non-null value with its
frequency — the pandas default `dropna=True` excludes NaN from the
report.  (pandas additionally orders the result by descending
frequency; the claim concerns only which value–frequency pairs are
reported.) -/
def valueCounts (col : List Val) : List (Val × ℕ) :=
  (col.filter (fun v => decide (v ≠ Val.null))).dedup.map
    (fun v => (v, (col.filter (fun v => decide (v ≠ Val.null))).count v))

/-- `ValueCountsInspection.inspect`. -/
def valueCountsInspect (cols : List String) (df : Table) : List InspectMsg :=
  cols.map (fun c =>
    if c ∈ df.colNames then .counts c (valueCounts (df.getCol c))
    else .missingWarn c)

/-- Claim C9: the inspection emits exactly one message per configured
column — a warning for each absent column (so a missing column never
aborts the run) and the per-distinct-value frequencies for each present
column, where every distinct non-null value is reported with its
occurrence count and null (NaN) values are never reported
(`value_counts()` default `dropna=True`). -/
theorem C9_value_counts_inspection (cols : List String) (df : Table) :
    ((valueCountsInspect cols df).length = cols.length) ∧
    (∀ (i : ℕ) (c : String), cols[i]? = some c → c ∉ df.colNames →
      (valueCountsInspect cols df)[i]? = some (.missingWarn c)) ∧
    (∀ (i : ℕ) (c : String), cols[i]? = some c → c ∈ df.colNames →
      (valueCountsInspect cols df)[i]? =
        some (.counts c (valueCounts (df.getCol c)))) ∧
    (∀ (col : List Val) (v : Val), v ≠ Val.null → v ∈ col →
      (v, col.count v) ∈ valueCounts col) ∧
    (∀ (col : List Val) (p : Val × ℕ), p ∈ valueCounts col →
      p.1 ≠ Val.null ∧ p.1 ∈ col ∧ p.2 = col.count p.1) := by
  refine ⟨List.length_map _ _, ?_, ?_, ?_, ?_⟩
  · intro i c hc habs
    rw [valueCountsInspect, List.getElem?_map, hc]
    simp [habs]
  · intro i c hc hmem
    rw [valueCountsInspect, List.getElem?_map, hc]
    simp [hmem]
  · intro col v hne hv
    have hvf : v ∈ col.filter (fun v => decide (v ≠ Val.null)) :=
      List.mem_filter.2 ⟨hv, by simp [hne]⟩
    have hcnt : (col.filter (fun v => decide (v ≠ Val.null))).count v =
        col.count v := List.count_filter (by simp [hne])
    exact List.mem_map.2 ⟨v, List.mem_dedup.2 hvf, by rw [hcnt]⟩
  · intro col p hp
    rcases List.mem_map.1 hp with ⟨w, hw, hwp⟩
    have hwf : w ∈ col.filter (fun v => decide (v ≠ Val.null)) :=
      List.mem_dedup.1 hw
    have hwcol : w ∈ col := (List.mem_filter.1 hwf).1
    have hwne : w ≠ Val.null := by
      have h2 := (List.mem_filter.1 hwf).2
      simpa using h2
    have hcnt : (col.filter (fun v => decide (v ≠ Val.null))).count w =
        col.count w := List.count_filter (by simp [hwne])
    rw [← hwp]
    exact ⟨hwne, hwcol, hcnt⟩

/-- Witness for C9: one present column containing a null and one
absent column; both produce a message, the non-null value is reported
with frequency 2, and every reported pair is non-null. -/
theorem C9_value_counts_inspection_witness :
    ((valueCountsInspect ["a", "b"]
      [("a", [.num 1, .null, .num 1])]).length = 2) ∧
    ((valueCountsInspect ["a", "b"] [("a", [.num 1, .null, .num 1])])[1]? =
      some (.missingWarn "b")) ∧
    ((valueCountsInspect ["a", "b"] [("a", [.num 1, .null, .num 1])])[0]? =
      some (.counts "a" (valueCounts [.num 1, .null, .num 1]))) ∧
    ((Val.num 1, ([.num 1, .null, .num 1] : List Val).count (.num 1)) ∈
      valueCounts [.num 1, .null, .num 1]) ∧
    ((Val.num 1, 2).1 ≠ Val.null ∧
      (Val.num 1, 2).1 ∈ ([.num 1, .null, .num 1] : List Val) ∧
      (Val.num 1, 2).2 =
        ([.num 1, .null, .num 1] : List Val).count (Val.num 1, 2).1) :=
  ⟨(C9_value_counts_inspection ["a", "b"]
      [("a", [.num 1, .null, .num 1])]).1,
   (C9_value_counts_inspection ["a", "b"]
      [("a", [.num 1, .null, .num 1])]).2.1 1 "b" (by decide) (by decide),
   (C9_value_counts_inspection ["a", "b"]
      [("a", [.num 1, .null, .num 1])]).2.2.1 0 "a" (by decide) (by decide),
   (C9_value_counts_inspection ["a", "b"]
      [("a", [.num 1, .null, .num 1])]).2.2.2.1
     [.num 1, .null, .num 1] (.num 1) (by decide) (by decide),
   (C9_value_counts_inspection ["a", "b"]
      [("a", [.num 1, .null, .num 1])]).2.2.2.2
     [.num 1, .null, .num 1] (Val.num 1, 2) (by decide)⟩

/-!
### C1: ImputeByGroupMaxStrategy.transform (preprocess.py)

`df[target] = df[target].fillna(df.groupby(group)[target].transform('max'))`.
The target column is a list of optional rationals (`none` = NaN), the
grouping column a list of group keys.
-/

/-- pandas skip-null `max` of a column: `none` when every entry is
null. -/
def maxNonNull (l : List (Option ℚ)) : Option ℚ :=
  l.foldr (fun a b =>
    match a, b with
    | none, b => b
    | some x, none => some x
    | some x, some y => some (max x y)) none

/-- The target values of the rows sharing the group key `g`. -/
def groupVals (group : List String) (target : List (Option ℚ))
    (g : String) : List (Option ℚ) :=
  ((group.zip target).filter (fun p => decide (p.1 = g))).map (·.2)

/-- `df.groupby(group)[target].transform('max')`: for every row, the
skip-null max over the rows sharing that row's group key. -/
def groupMaxTransform (group : List String) (target : List (Option ℚ)) :
    List (Option ℚ) :=
  group.map (fun g => maxNonNull (groupVals group target g))

/-- `ImputeByGroupMaxStrategy.transform`, on the target column:
`fillna` with the group-max series. -/
def imputeByGroupMax (group : List String) (target : List (Option ℚ)) :
    List (Option ℚ) :=
  (target.zip (groupMaxTransform group target)).map
    (fun p => match p.1 with | some v => some v | none => p.2)

theorem maxNonNull_eq_none (l : List (Option ℚ)) (h : maxNonNull l = none) :
    ∀ x : ℚ, some x ∉ l := by
  induction l with
  | nil => simp
  | cons a t ih =>
    intro x hx
    cases a with
    | none =>
      have ht : maxNonNull t = none := by simpa [maxNonNull] using h
      rcases List.mem_cons.1 hx with h' | h'
      · exact Option.noConfusion h'
      · exact ih ht x h'
    | some y =>
      rw [maxNonNull, List.foldr] at h
      rcases hmt : maxNonNull t with _ | z
      · rw [show List.foldr _ none t = maxNonNull t from rfl, hmt] at h
        exact Option.noConfusion h
      · rw [show List.foldr _ none t = maxNonNull t from rfl, hmt] at h
        exact Option.noConfusion h

theorem maxNonNull_spec (l : List (Option ℚ)) (m : ℚ)
    (h : maxNonNull l = some m) :
    some m ∈ l ∧ ∀ x : ℚ, some x ∈ l → x ≤ m := by
  induction l generalizing m with
  | nil => exact Option.noConfusion h
  | cons a t ih =>
    cases a with
    | none =>
      have ht : maxNonNull t = some m := by simpa [maxNonNull] using h
      obtain ⟨hmem, hle⟩ := ih m ht
      refine ⟨List.mem_cons.2 (Or.inr hmem), ?_⟩
      intro x hx
      rcases List.mem_cons.1 hx with h' | h'
      · exact Option.noConfusion h'
      · exact hle x h'
    | some y =>
      rw [maxNonNull, List.foldr,
        show List.foldr _ none t = maxNonNull t from rfl] at h
      rcases hmt : maxNonNull t with _ | z
      · rw [hmt] at h
        have hy : y = m := by simpa using h
        subst hy
        refine ⟨List.mem_cons.2 (Or.inl rfl), ?_⟩
        intro x hx
        rcases List.mem_cons.1 hx with h' | h'
        · simp at h'
          exact h' ▸ le_refl x
        · exact absurd h' (maxNonNull_eq_none t hmt x)
      · rw [hmt] at h
        have hm : max y z = m := by simpa using h
        obtain ⟨hmem, hle⟩ := ih z hmt
        constructor
        · rcases max_choice y z with hc | hc
          · exact List.mem_cons.2 (Or.inl (by rw [← hm, hc]))
          · exact List.mem_cons.2 (Or.inr (by rw [← hm, hc]; exact hmem))
        · intro x hx
          rcases List.mem_cons.1 hx with h' | h'
          · have : x = y := by simpa using h'
            rw [this, ← hm]
            exact le_max_left y z
          · calc x ≤ z := hle x h'
              _ ≤ max y z := le_max_right y z
              _ = m := hm

/-- Claim C1: group-max imputation fills every null target cell with
the maximum non-null target value among the rows sharing its group key
and leaves every non-null target cell unchanged (row count is also
preserved). -/
theorem C1_impute_by_group_max (group : List String)
    (target : List (Option ℚ)) (hlen : group.length = target.length) :
    ((imputeByGroupMax group target).length = target.length) ∧
    (∀ (i : ℕ) (v : ℚ), target[i]? = some (some v) →
      (imputeByGroupMax group target)[i]? = some (some v)) ∧
    (∀ (i : ℕ) (g : String), target[i]? = some none → group[i]? = some g →
      ∀ M : ℚ, some M ∈ groupVals group target g →
        (∀ x : ℚ, some x ∈ groupVals group target g → x ≤ M) →
        (imputeByGroupMax group target)[i]? = some (some M)) := by
  have hgmlen : (groupMaxTransform group target).length = target.length := by
    rw [groupMaxTransform, List.length_map, hlen]
  refine ⟨?_, ?_, ?_⟩
  · rw [imputeByGroupMax, List.length_map, List.length_zip, hgmlen,
      min_self]
  · intro i v hv
    have hi : i < target.length := by
      by_contra hlt
      rw [List.getElem?_eq_none (by omega)] at hv
      exact Option.noConfusion hv
    have hgm : ∃ w, (groupMaxTransform group target)[i]? = some w :=
      ⟨_, List.getElem?_eq_getElem (by omega)⟩
    obtain ⟨w, hw⟩ := hgm
    rw [imputeByGroupMax, List.getElem?_map,
      (List.getElem?_zip_eq_some (z := (some v, w))).2 ⟨hv, hw⟩]
    rfl
  · intro i g htv hgv M hM hMle
    have hi : i < target.length := by
      by_contra hlt
      rw [List.getElem?_eq_none (by omega)] at htv
      exact Option.noConfusion htv
    have hgm : (groupMaxTransform group target)[i]? =
        some (maxNonNull (groupVals group target g)) := by
      rw [groupMaxTransform, List.getElem?_map, hgv]
      rfl
    have hmax : maxNonNull (groupVals group target g) = some M := by
      rcases hmn : maxNonNull (groupVals group target g) with _ | m
      · exact absurd hM (maxNonNull_eq_none _ hmn M)
      · obtain ⟨hmem, hle⟩ := maxNonNull_spec _ m hmn
        have h1 : m ≤ M := hMle m hmem
        have h2 : M ≤ m := hle M hM
        rw [le_antisymm h2 h1]
    rw [imputeByGroupMax, List.getElem?_map,
      (List.getElem?_zip_eq_some
        (z := (none, maxNonNull (groupVals group target g)))).2 ⟨htv, hgm⟩]
    simp [hmax]

/-- Witness for C1 at target = [1, null, 3], group = [A, A, B]: the
null is filled with 1 (the max of group A's non-null values) and the
non-null first cell stays unchanged. -/
theorem C1_impute_by_group_max_witness :
    ((imputeByGroupMax ["A", "A", "B"] [some 1, none, some 3])[0]? =
      some (some 1)) ∧
    ((imputeByGroupMax ["A", "A", "B"] [some 1, none, some 3])[1]? =
      some (some 1)) := by
  have h := C1_impute_by_group_max ["A", "A", "B"] [some 1, none, some 3] rfl
  refine ⟨h.2.1 0 1 rfl, h.2.2 1 "A" rfl rfl 1 (by decide) ?_⟩
  intro x hx
  have hx' : some x ∈ [some (1 : ℚ), none] := by
    simpa [groupVals] using hx
  have : x = 1 := by simpa using hx'
  rw [this]

/-!
### C4: OutletAGECalcation.apply_transformation (feature_engineering.py)

`df_transformed = df.copy();
 df_transformed[new_feature] = 2024 - df_transformed[old_feature];
 df_transformed = df_transformed.drop(columns=[old_feature])`.
-/

/-- `2024 - column` on one cell: the pandas scalar-minus-Series
broadcast.  On a numeric cell the numeric difference; NaN propagates.
(A non-numeric cell would raise a TypeError in pandas; under the
numeric-column hypotheses of the theorems this branch is
unreachable.) -/
def Val.rsub (c : ℚ) : Val → Val
  | .num q => .num (c - q)
  | v => v

/-- `OutletAGECalcation.apply_transformation`. -/
def outletAgeTransform (newF oldF : String) (df : Table) : Table :=
  (df.setCol newF ((df.getCol oldF).map (Val.rsub 2024))).dropCols [oldF]

/-- Claim C4: after age derivation the new column holds
`2024 - old_feature` for every row and the old column is gone. -/
theorem C4_outlet_age (newF oldF : String) (df : Table)
    (hold : oldF ∈ df.colNames) (hne : newF ≠ oldF) :
    ((outletAgeTransform newF oldF df).getCol newF =
      (df.getCol oldF).map (Val.rsub 2024)) ∧
    (∀ (i : ℕ) (q : ℚ), (df.getCol oldF)[i]? = some (.num q) →
      ((outletAgeTransform newF oldF df).getCol newF)[i]? =
        some (.num (2024 - q))) ∧
    (oldF ∉ (outletAgeTransform newF oldF df).colNames) := by
  have hcol : (outletAgeTransform newF oldF df).getCol newF =
      (df.getCol oldF).map (Val.rsub 2024) := by
    unfold outletAgeTransform Table.getCol
    rw [Table.lookup_dropCols _ _ _ (by simpa using hne),
      Table.lookup_setCol_self]
    rfl
  refine ⟨hcol, ?_, ?_⟩
  · intro i q hq
    rw [hcol, List.getElem?_map, hq]
    rfl
  · exact Table.not_mem_colNames_dropCols _ [oldF] oldF (by simp)

/-- Witness for C4 at column `year_built = [2000, 2010]`: the derived
`age` column equals `[24, 14]` and `year_built` is dropped. -/
theorem C4_outlet_age_witness :
    ((outletAgeTransform "age" "year_built"
        [("year_built", [.num 2000, .num 2010])]).getCol "age" =
      [.num 24, .num 14]) ∧
    ("year_built" ∉ (outletAgeTransform "age" "year_built"
        [("year_built", [.num 2000, .num 2010])]).colNames) := by
  have h := C4_outlet_age "age" "year_built"
    [("year_built", [.num 2000, .num 2010])] (by decide) (by decide)
  refine ⟨?_, h.2.2⟩
  rw [h.1]
  show [Val.num (2024 - 2000), Val.num (2024 - 2010)] = [Val.num 24, Val.num 14]
  norm_num

/-!
### C5: OneHotEncoding.apply_transformation (feature_engineering.py)

`OneHotEncoder(sparse=False, drop="first")` fit on `df[features]`:
per feature the observed categories are sorted ascending (np.unique),
the first (smallest) category is dropped as baseline, and one
indicator column named `f_cat` per remaining category holds 1.0 where
the row's value equals that category and 0.0 elsewhere.  The original
columns are dropped and the indicator columns appended
(`drop(columns=features)` then `concat`).
-/

/-- Lexicographic comparison of character lists: the string order used
by np.unique when sorting observed categories. -/
def charListLe : List Char → List Char → Bool
  | [], _ => true
  | _ :: _, [] => false
  | a :: as, b :: bs => if a = b then charListLe as bs else decide (a < b)

/-- Ordering on cells used when sorting observed categories: numbers
first (numerically), then strings (lexicographically), then null. -/
def Val.leB : Val → Val → Bool
  | .num a, .num b => decide (a ≤ b)
  | .num _, _ => true
  | .str _, .num _ => false
  | .str a, .str b => charListLe a.toList b.toList
  | .str _, .null => true
  | .null, .null => true
  | .null, _ => false

/-- The observed categories of a column, sorted ascending
(np.unique). -/
def sortedCats (col : List Val) : List Val :=
  col.dedup.insertionSort (fun a b => Val.leB a b = true)

/-- Display name of a category inside an indicator column name
(`get_feature_names_out`). -/
def Val.catName : Val → String
  | .num q => toString q.num ++ (if q.den = 1 then "" else "/" ++ toString q.den)
  | .str s => s
  | .null => "nan"

/-- One indicator column: 1.0 where the row's value equals the
category, 0.0 elsewhere. -/
def indCol (col : List Val) (c : Val) : List Val :=
  col.map (fun v => if v = c then Val.num 1 else Val.num 0)

/-- The indicator block of one encoded feature: one column per
non-baseline category, in sorted category order. -/
def encBlock (df : Table) (f : String) : Table :=
  (sortedCats (df.getCol f)).tail.map
    (fun c => (f ++ "_" ++ c.catName, indCol (df.getCol f) c))

/-- `OneHotEncoding.apply_transformation`. -/
def oneHotTransform (features : List String) (df : Table) : Table :=
  df.dropCols features ++ features.flatMap (encBlock df)

theorem sortedCats_nodup (col : List Val) : (sortedCats col).Nodup :=
  (List.perm_insertionSort _ col.dedup).nodup_iff.2 (List.nodup_dedup col)

theorem mem_sortedCats {col : List Val} {v : Val} (h : v ∈ col) :
    v ∈ sortedCats col := by
  unfold sortedCats
  rw [List.mem_insertionSort]
  exact List.mem_dedup.2 h

/-- Claim C5: one-hot encoding drops the original categorical columns
and appends, per feature with k observed categories, exactly k-1
indicator columns; every row's indicator entries equal 1 exactly on
its own category, and a row carries all-zero indicators precisely when
its value is the dropped (first, sorted) baseline category. -/
theorem C5_one_hot_encoding (features : List String) (df : Table) :
    (oneHotTransform features df =
      df.dropCols features ++ features.flatMap (encBlock df)) ∧
    (∀ f ∈ features, f ∉ (df.dropCols features).colNames) ∧
    (∀ f, (encBlock df f).length = (df.getCol f).dedup.length - 1) ∧
    (∀ (f : String) (c : Val), c ∈ (sortedCats (df.getCol f)).tail →
      ∀ (i : ℕ) (v : Val), (df.getCol f)[i]? = some v →
        (indCol (df.getCol f) c)[i]? =
          some (if v = c then Val.num 1 else Val.num 0)) ∧
    (∀ (f : String) (v : Val), v ∈ df.getCol f →
      ((∀ c ∈ (sortedCats (df.getCol f)).tail, v ≠ c) ↔
        (sortedCats (df.getCol f)).head? = some v)) := by
  refine ⟨rfl, ?_, ?_, ?_, ?_⟩
  · intro f hf
    exact Table.not_mem_colNames_dropCols df features f hf
  · intro f
    rw [encBlock, List.length_map, List.length_tail, sortedCats,
      List.length_insertionSort]
  · intro f c _ i v hv
    rw [indCol, List.getElem?_map, hv]
    rfl
  · intro f v hv
    have hmem : v ∈ sortedCats (df.getCol f) := mem_sortedCats hv
    have hnd : (sortedCats (df.getCol f)).Nodup := sortedCats_nodup _
    cases hs : sortedCats (df.getCol f) with
    | nil => rw [hs] at hmem; exact absurd hmem (List.not_mem_nil v)
    | cons hd tl =>
      rw [hs] at hmem hnd
      rw [List.tail_cons, List.head?_cons]
      constructor
      · intro hne
        rcases List.mem_cons.1 hmem with h' | h'
        · rw [h']
        · exact absurd rfl (hne v h')
      · intro hh c hc hvc
        have hvhd : hd = v := by simpa using hh
        have hin : hd ∈ tl := by rw [hvhd, hvc]; exact hc
        exact (List.nodup_cons.1 hnd).1 hin

/-- Witness for C5 at features = [color], column
`color = [red, blue, red]` (k = 2 categories, baseline `blue`): one
indicator column, `color` gone from the untouched block, indicator 1
exactly on `red` rows, all-zero exactly for `blue`. -/
theorem C5_one_hot_encoding_witness :
    ("color" ∉ (Table.dropCols
        [("color", [Val.str "red", Val.str "blue", Val.str "red"])]
        ["color"]).colNames) ∧
    ((encBlock [("color", [Val.str "red", Val.str "blue", Val.str "red"])]
        "color").length =
      ((Table.getCol [("color", [Val.str "red", Val.str "blue", Val.str "red"])]
        "color").dedup.length - 1)) ∧
    ((indCol (Table.getCol
        [("color", [Val.str "red", Val.str "blue", Val.str "red"])] "color")
        (Val.str "red"))[0]? = some (Val.num 1)) ∧
    ((∀ c ∈ (sortedCats (Table.getCol
          [("color", [Val.str "red", Val.str "blue", Val.str "red"])]
          "color")).tail, Val.str "blue" ≠ c) ↔
      (sortedCats (Table.getCol
          [("color", [Val.str "red", Val.str "blue", Val.str "red"])]
          "color")).head? = some (Val.str "blue")) := by
  have h := C5_one_hot_encoding ["color"]
    [("color", [Val.str "red", Val.str "blue", Val.str "red"])]
  refine ⟨h.2.1 "color" (by decide), h.2.2.1 "color", ?_, ?_⟩
  · have := h.2.2.2.1 "color" (Val.str "red") (by decide) 0 (Val.str "red")
      (by decide)
    rw [this]
    decide
  · exact h.2.2.2.2 "color" (Val.str "blue") (by decide)

/-!
### C10: feature-engineering strategies operate on a copy

Every `apply_transformation` in feature_engineering.py first executes
`df_transformed = df.copy()` and then writes only to the copy (or
rebinds its local name to a fresh frame), so the caller's input frame
is unchanged after the call.  To make this observable we model a heap
of DataFrame objects: a store of tables addressed by references;
`df.copy()` allocates a new cell, in-place column assignment and
in-place drop write through a reference, and operations returning
fresh frames allocate.  The sklearn scaler outputs and
`pd.get_dummies` are external library functions and enter as
parameters; the claim holds for every choice of them.
-/

/-- The heap of DataFrame objects: references are list positions. -/
abbrev Store := List Table

/-- Dereference. -/
def Store.read (s : Store) (r : ℕ) : Table := (s[r]?).getD []

/-- In-place update of the object behind a reference. -/
def Store.write (s : Store) (r : ℕ) (t : Table) : Store := s.set r t

/-- Allocate a fresh object (`df.copy()`, or a library call returning
a fresh frame); returns the new store and the new reference. -/
def Store.alloc (s : Store) (t : Table) : Store × ℕ := (s ++ [t], s.length)

/-- `df[features] = matrix`: columnwise assignment. -/
def Table.setCols (t : Table) (cs : List String) (vs : List (List Val)) :
    Table :=
  (cs.zip vs).foldl (fun acc p => acc.setCol p.1 p.2) t

/-- `LabelEncoder.fit_transform`: each value becomes the position of
its category among the sorted distinct values. -/
def labelEncodeCol (col : List Val) : List Val :=
  col.map (fun v => Val.num (((sortedCats col).indexOf v : ℕ) : ℚ))

/-- `OutletAGECalcation.apply_transformation` as a store program:
copy, assign the new column on the copy, drop the old column from the
copy. -/
def outletAgeRun (newF oldF : String) (s : Store) (df : ℕ) : Store × ℕ :=
  let a := s.alloc (s.read df)
  let s2 := a.1.write a.2 ((a.1.read a.2).setCol newF
    (((a.1.read a.2).getCol oldF).map (Val.rsub 2024)))
  let s3 := s2.write a.2 ((s2.read a.2).dropCols [oldF])
  (s3, a.2)

/-- `StandardScaling.apply_transformation` as a store program: copy,
then assign the scaler's output (computed from the original frame's
columns) to the copy. -/
def standardScalingRun (features : List String)
    (scalerOut : List (List Val) → List (List Val)) (s : Store) (df : ℕ) :
    Store × ℕ :=
  let a := s.alloc (s.read df)
  let s2 := a.1.write a.2 (Table.setCols (a.1.read a.2) features
    (scalerOut (features.map ((a.1.read df).getCol ·))))
  (s2, a.2)

/-- `MinMaxScaling.apply_transformation` as a store program (same
shape as standard scaling, with the min-max scaler's output as the
parameter). -/
def minMaxScalingRun (features : List String)
    (scalerOut : List (List Val) → List (List Val)) (s : Store) (df : ℕ) :
    Store × ℕ :=
  let a := s.alloc (s.read df)
  let s2 := a.1.write a.2 (Table.setCols (a.1.read a.2) features
    (scalerOut (features.map ((a.1.read df).getCol ·))))
  (s2, a.2)

/-- `OneHotEncoding.apply_transformation` as a store program: copy,
then rebind to the fresh frame `drop(columns).reset_index` + `concat`
(no further in-place write). -/
def oneHotRun (features : List String) (s : Store) (df : ℕ) : Store × ℕ :=
  let a := s.alloc (s.read df)
  let b := a.1.alloc ((a.1.read a.2).dropCols features ++
    features.flatMap (encBlock (a.1.read df)))
  (b.1, b.2)

/-- The in-place label-encoding loop of
`LabelEncodingStrategy.apply_transformation`: for each configured
feature, assign on the copy (behind reference `r`) the encoded column
computed from the original frame (behind reference `df`). -/
def labelEncodingSteps (features : List String) (r df : ℕ)
    (st : Store) : Store :=
  features.foldl
    (fun st f => st.write r ((st.read r).setCol f
      (labelEncodeCol ((st.read df).getCol f)))) st

/-- `LabelEncodingStrategy.apply_transformation` as a store program:
copy; label-encode each configured feature in place on the copy;
optionally drop columns in place; optionally rebind to the fresh
`pd.get_dummies` frame. -/
def labelEncodingRun (features dropCs : List String) (applyDummies : Bool)
    (dummies : Table → Table) (s : Store) (df : ℕ) : Store × ℕ :=
  let a := s.alloc (s.read df)
  let s2 := labelEncodingSteps features a.2 df a.1
  let s3 := if dropCs.isEmpty then s2
    else s2.write a.2 ((s2.read a.2).dropCols dropCs)
  if applyDummies then
    let b := s3.alloc (dummies (s3.read a.2))
    (b.1, b.2)
  else (s3, a.2)

theorem Store.read_write_ne (s : Store) {r i : ℕ} (t : Table)
    (h : r ≠ i) : (s.write r t).read i = s.read i := by
  unfold Store.read Store.write
  rw [List.getElem?_set_ne h]

theorem Store.read_alloc (s : Store) (t : Table) {i : ℕ}
    (h : i < s.length) : (s.alloc t).1.read i = s.read i := by
  unfold Store.read Store.alloc
  rw [List.getElem?_append, if_pos h]

theorem Store.length_write (s : Store) (r : ℕ) (t : Table) :
    (s.write r t).length = s.length := List.length_set s r t

theorem Store.read_foldl_write {β : Type} (g : Store → β → Table)
    (r i : ℕ) (h : r ≠ i) (fs : List β) :
    ∀ st : Store,
      (fs.foldl (fun st f => (st.write r (g st f))) st).read i =
        st.read i := by
  induction fs with
  | nil => intro st; rfl
  | cons f fs ih =>
    intro st
    rw [List.foldl_cons, ih, Store.read_write_ne _ _ h]

theorem Store.length_foldl_write {β : Type} (g : Store → β → Table)
    (r : ℕ) (fs : List β) :
    ∀ st : Store,
      (fs.foldl (fun st f => (st.write r (g st f))) st).length =
        st.length := by
  induction fs with
  | nil => intro st; rfl
  | cons f fs ih =>
    intro st
    rw [List.foldl_cons, ih, Store.length_write]

theorem labelEncodingSteps_read_ne (features : List String) (r df i : ℕ)
    (h : r ≠ i) (st : Store) :
    (labelEncodingSteps features r df st).read i = st.read i :=
  Store.read_foldl_write _ r i h features st

theorem labelEncodingSteps_length (features : List String) (r df : ℕ)
    (st : Store) :
    (labelEncodingSteps features r df st).length = st.length :=
  Store.length_foldl_write _ r features st

/-- Claim C10: each feature-engineering strategy (age derivation,
standard scaling, min-max scaling, one-hot encoding, label encoding)
leaves the caller's input frame unchanged: after the call the object
the input reference points to is exactly the table it held before. -/
theorem C10_apply_transformation_preserves_input
    (s : Store) (df : ℕ) (h : df < s.length)
    (newF oldF : String) (features dropCs : List String)
    (scalerOut minmaxOut : List (List Val) → List (List Val))
    (applyDummies : Bool) (dummies : Table → Table) :
    ((outletAgeRun newF oldF s df).1.read df = s.read df) ∧
    ((standardScalingRun features scalerOut s df).1.read df = s.read df) ∧
    ((minMaxScalingRun features minmaxOut s df).1.read df = s.read df) ∧
    ((oneHotRun features s df).1.read df = s.read df) ∧
    ((labelEncodingRun features dropCs applyDummies dummies s df).1.read df =
      s.read df) := by
  have hne : s.length ≠ df := by omega
  have halloc : ∀ t : Table, (s.alloc t).2 = s.length := fun _ => rfl
  refine ⟨?_, ?_, ?_, ?_, ?_⟩
  · show (((s.alloc (s.read df)).1.write _ _).write _ _).read df = s.read df
    simp only [halloc]
    rw [Store.read_write_ne _ _ hne, Store.read_write_ne _ _ hne,
      Store.read_alloc _ _ h]
  · show ((s.alloc (s.read df)).1.write _ _).read df = s.read df
    simp only [halloc]
    rw [Store.read_write_ne _ _ hne, Store.read_alloc _ _ h]
  · show ((s.alloc (s.read df)).1.write _ _).read df = s.read df
    simp only [halloc]
    rw [Store.read_write_ne _ _ hne, Store.read_alloc _ _ h]
  · show ((s.alloc (s.read df)).1.alloc _).1.read df = s.read df
    rw [Store.read_alloc _ _ (by
      show df < ((s ++ [s.read df]) : Store).length
      rw [List.length_append]
      omega), Store.read_alloc _ _ h]
  · simp only [labelEncodingRun, halloc]
    have hF1 : (labelEncodingSteps features s.length df
        (s.alloc (s.read df)).1).read df = s.read df := by
      rw [labelEncodingSteps_read_ne _ _ _ _ hne, Store.read_alloc _ _ h]
    have hF2 : (labelEncodingSteps features s.length df
        (s.alloc (s.read df)).1).length = s.length + 1 := by
      rw [labelEncodingSteps_length]
      show ((s ++ [s.read df]) : Store).length = s.length + 1
      rw [List.length_append]
      rfl
    generalize hG : labelEncodingSteps features s.length df
        (s.alloc (s.read df)).1 = F at hF1 hF2 ⊢
    cases applyDummies with
    | false =>
      simp only [Bool.false_eq_true, if_false]
      by_cases hd : dropCs.isEmpty
      · rw [if_pos hd]
        exact hF1
      · rw [if_neg hd]
        rw [Store.read_write_ne _ _ hne]
        exact hF1
    | true =>
      simp only [if_true]
      by_cases hd : dropCs.isEmpty
      · rw [if_pos hd]
        rw [Store.read_alloc _ _ (by omega)]
        exact hF1
      · rw [if_neg hd]
        rw [Store.read_alloc _ _ (by rw [Store.length_write]; omega),
          Store.read_write_ne _ _ hne]
        exact hF1

/-- Witness for C10: a one-cell store holding a one-column frame; all
five strategies leave the input object unchanged. -/
theorem C10_apply_transformation_preserves_input_witness :
    ((outletAgeRun "age" "year" [[("year", [Val.num 2000])]] 0).1.read 0 =
      Store.read [[("year", [Val.num 2000])]] 0) ∧
    ((standardScalingRun ["year"] (fun x => x)
        [[("year", [Val.num 2000])]] 0).1.read 0 =
      Store.read [[("year", [Val.num 2000])]] 0) ∧
    ((minMaxScalingRun ["year"] (fun x => x)
        [[("year", [Val.num 2000])]] 0).1.read 0 =
      Store.read [[("year", [Val.num 2000])]] 0) ∧
    ((oneHotRun ["year"] [[("year", [Val.num 2000])]] 0).1.read 0 =
      Store.read [[("year", [Val.num 2000])]] 0) ∧
    ((labelEncodingRun ["year"] [] true (fun t => t)
        [[("year", [Val.num 2000])]] 0).1.read 0 =
      Store.read [[("year", [Val.num 2000])]] 0) :=
  C10_apply_transformation_preserves_input [[("year", [Val.num 2000])]] 0
    (by decide) "age" "year" ["year"] [] (fun x => x) (fun x => x) true
    (fun t => t)

/-!
### C2: CramersVStrategy.analyze (multiveriate_analysis.py)

For each ordered pair of configured features, `cramers_v(x, y)` is
computed on the label-encoded columns:

  `cross_tab = pd.crosstab(x, y);
   chi2 = chi2_contingency(cross_tab)[0];
   n = cross_tab.sum().sum(); r, k = cross_tab.shape;
   sqrt(chi2 / (n * (min(r, k) - 1)))`.

`chi2_contingency` applies the Yates continuity correction exactly
when `dof = (r-1)(k-1) = 1`, i.e. on 2×2 tables: each observed value
is moved half a unit toward its expected value before squaring.  When
the normalizer `n * (min(r, k) - 1)` is zero (single-category
feature), NumPy produces NaN — modelled as `none`.
-/

/-- Observed contingency count: an entry of `pd.crosstab(x, y)`. -/
def cvObsN (xs ys : List ℕ) (a b : ℕ) : ℕ :=
  (xs.zip ys).countP (fun p => decide (p = (a, b)))

/-- The observed count as a rational. -/
def cvObs (xs ys : List ℕ) (a b : ℕ) : ℚ := (cvObsN xs ys a b : ℕ)

/-- Row marginal of the contingency table. -/
def cvRow (xs ys : List ℕ) (a : ℕ) : ℚ := ∑ b ∈ ys.toFinset, cvObs xs ys a b

/-- Column marginal of the contingency table. -/
def cvCol (xs ys : List ℕ) (b : ℕ) : ℚ := ∑ a ∈ xs.toFinset, cvObs xs ys a b

/-- Grand total `cross_tab.sum().sum()`. -/
def cvTot (xs ys : List ℕ) : ℚ := ((xs.zip ys).length : ℕ)

/-- Expected frequency under independence. -/
def cvExp (xs ys : List ℕ) (a b : ℕ) : ℚ :=
  cvRow xs ys a * cvCol xs ys b / cvTot xs ys

/-- numpy sign. -/
def qsgn (q : ℚ) : ℚ := if q < 0 then -1 else if q = 0 then 0 else 1

/-- One χ² summand without continuity correction. -/
def plainTerm (o e : ℚ) : ℚ := (o - e) ^ 2 / e

/-- One χ² summand with the Yates continuity correction: the observed
value is moved toward the expected one by half a unit, but never past
it (scipy caps the correction magnitude at the deviation itself). -/
def yatesTerm (o e : ℚ) : ℚ :=
  (o + qsgn (e - o) * min (1 / 2) |e - o| - e) ^ 2 / e

/-- The uncorrected χ² statistic of the contingency table. -/
def chi2Plain (xs ys : List ℕ) : ℚ :=
  ∑ a ∈ xs.toFinset, ∑ b ∈ ys.toFinset,
    plainTerm (cvObs xs ys a b) (cvExp xs ys a b)

/-- The Yates-corrected χ² statistic of the contingency table. -/
def chi2Yates (xs ys : List ℕ) : ℚ :=
  ∑ a ∈ xs.toFinset, ∑ b ∈ ys.toFinset,
    yatesTerm (cvObs xs ys a b) (cvExp xs ys a b)

/-- `chi2_contingency(cross_tab)[0]`: the χ² statistic, Yates-corrected
exactly on 2×2 tables (dof = 1). -/
def chi2 (xs ys : List ℕ) : ℚ :=
  if xs.toFinset.card = 2 ∧ ys.toFinset.card = 2 then chi2Yates xs ys
  else chi2Plain xs ys

/-- `chi2 / (n * (min(r, k) - 1))`: the square of cramers_v. -/
def cramersVsq (xs ys : List ℕ) : ℚ :=
  chi2 xs ys /
    (cvTot xs ys * ((min xs.toFinset.card ys.toFinset.card : ℕ) - 1))

/-- `cramers_v(x, y)`; `none` models the NaN arising from a zero
normalizer. -/
noncomputable def cramersV (xs ys : List ℕ) : Option ℝ :=
  if cvTot xs ys * ((min xs.toFinset.card ys.toFinset.card : ℕ) - 1) = 0
  then none
  else some (Real.sqrt ((cramersVsq xs ys : ℚ) : ℝ))

/-- `LabelEncoder.fit_transform` as a map into ℕ: each value's
position among the sorted distinct values of its column. -/
def encNat (col : List Val) : List ℕ :=
  col.map (fun v => (sortedCats col).indexOf v)

/-- One entry of the Cramér's V matrix produced by
`CramersVStrategy.analyze`: cramers_v on the label-encoded columns of
two configured features. -/
noncomputable def cramersVEntry (df : Table) (f g : String) : Option ℝ :=
  cramersV (encNat (df.getCol f)) (encNat (df.getCol g))

/-! #### Symmetry of cramers_v -/

theorem cvObsN_symm (xs ys : List ℕ) (a b : ℕ) :
    cvObsN ys xs b a = cvObsN xs ys a b := by
  unfold cvObsN
  rw [← List.zip_swap xs ys, List.countP_map]
  refine List.countP_congr (fun p _ => ?_)
  cases p with
  | mk u v =>
    simp only [Function.comp, Prod.swap_prod_mk]
    simp [Prod.ext_iff, and_comm]

theorem cvObs_symm (xs ys : List ℕ) (a b : ℕ) :
    cvObs ys xs b a = cvObs xs ys a b := by
  unfold cvObs
  rw [cvObsN_symm]

theorem cvRow_symm (xs ys : List ℕ) (a : ℕ) :
    cvRow ys xs a = cvCol xs ys a := by
  unfold cvRow cvCol
  exact Finset.sum_congr rfl (fun b _ => cvObs_symm xs ys b a)

theorem cvCol_symm (xs ys : List ℕ) (b : ℕ) :
    cvCol ys xs b = cvRow xs ys b := by
  unfold cvRow cvCol
  exact Finset.sum_congr rfl (fun a _ => cvObs_symm xs ys b a)

theorem cvTot_symm (xs ys : List ℕ) : cvTot ys xs = cvTot xs ys := by
  unfold cvTot
  rw [← List.zip_swap xs ys, List.length_map]

theorem cvExp_symm (xs ys : List ℕ) (a b : ℕ) :
    cvExp ys xs b a = cvExp xs ys a b := by
  unfold cvExp
  rw [cvRow_symm xs ys b, cvCol_symm xs ys a, cvTot_symm]
  ring

theorem chi2Plain_symm (xs ys : List ℕ) : chi2Plain ys xs = chi2Plain xs ys := by
  unfold chi2Plain
  rw [Finset.sum_comm]
  exact Finset.sum_congr rfl (fun b _ => Finset.sum_congr rfl
    (fun a _ => by rw [cvObs_symm xs ys b a, cvExp_symm xs ys b a]))

theorem chi2Yates_symm (xs ys : List ℕ) : chi2Yates ys xs = chi2Yates xs ys := by
  unfold chi2Yates
  rw [Finset.sum_comm]
  exact Finset.sum_congr rfl (fun b _ => Finset.sum_congr rfl
    (fun a _ => by rw [cvObs_symm xs ys b a, cvExp_symm xs ys b a]))

theorem chi2_symm (xs ys : List ℕ) : chi2 ys xs = chi2 xs ys := by
  unfold chi2
  by_cases hc : xs.toFinset.card = 2 ∧ ys.toFinset.card = 2
  · rw [if_pos ⟨hc.2, hc.1⟩, if_pos hc, chi2Yates_symm]
  · rw [if_neg (fun h => hc ⟨h.2, h.1⟩), if_neg hc, chi2Plain_symm]

theorem cramersVsq_symm (xs ys : List ℕ) :
    cramersVsq ys xs = cramersVsq xs ys := by
  unfold cramersVsq
  rw [chi2_symm, cvTot_symm, min_comm]

theorem cramersV_symm (xs ys : List ℕ) : cramersV ys xs = cramersV xs ys := by
  unfold cramersV
  rw [cvTot_symm, min_comm, cramersVsq_symm]

/-! #### The diagonal of the Cramér's V matrix -/

/-- Number of occurrences of a value in a column. -/
def cvCnt (xs : List ℕ) (a : ℕ) : ℚ :=
  (xs.countP (fun v => decide (v = a)) : ℕ)

theorem cvCnt_eq_count (xs : List ℕ) (a : ℕ) :
    cvCnt xs a = (xs.count a : ℕ) := by
  unfold cvCnt
  have h : xs.countP (fun v => decide (v = a)) = xs.count a := by
    rw [List.count_eq_countP]
    exact List.countP_congr (fun v _ => by simp)
  rw [h]

theorem cvCnt_pos (xs : List ℕ) (a : ℕ) (h : a ∈ xs) : 1 ≤ cvCnt xs a := by
  unfold cvCnt
  have : 0 < xs.countP (fun v => decide (v = a)) :=
    List.countP_pos_iff.2 ⟨a, h, by simp⟩
  exact_mod_cast this

theorem cvObsN_diag (xs : List ℕ) (a b : ℕ) :
    cvObsN xs xs a b =
      if a = b then xs.countP (fun v => decide (v = a)) else 0 := by
  unfold cvObsN
  induction xs with
  | nil =>
    rw [show (([] : List ℕ).zip []) = ([] : List (ℕ × ℕ)) from rfl,
      List.countP_nil, List.countP_nil]
    split <;> rfl
  | cons x t ih =>
    rw [List.zip_cons_cons, List.countP_cons, ih, List.countP_cons]
    by_cases hab : a = b
    · subst hab
      rw [if_pos rfl, if_pos rfl]
      simp [Prod.ext_iff]
    · have hne : ¬((x, x) = (a, b)) := by
        intro hp
        have h1 : x = a := congrArg Prod.fst hp
        have h2 : x = b := congrArg Prod.snd hp
        exact hab (h1.symm.trans h2)
      rw [if_neg hab, if_neg hab]
      simp [hne]

theorem cvObs_diag (xs : List ℕ) (a b : ℕ) :
    cvObs xs xs a b = if a = b then cvCnt xs a else 0 := by
  unfold cvObs cvCnt
  rw [cvObsN_diag]
  split <;> simp

theorem cvRow_diag (xs : List ℕ) (a : ℕ) (h : a ∈ xs.toFinset) :
    cvRow xs xs a = cvCnt xs a := by
  unfold cvRow
  calc ∑ b ∈ xs.toFinset, cvObs xs xs a b
      = ∑ b ∈ xs.toFinset, if a = b then cvCnt xs a else 0 :=
        Finset.sum_congr rfl (fun b _ => cvObs_diag xs a b)
    _ = if a ∈ xs.toFinset then cvCnt xs a else 0 :=
        Finset.sum_ite_eq xs.toFinset a (fun _ => cvCnt xs a)
    _ = cvCnt xs a := if_pos h

theorem cvCol_diag (xs : List ℕ) (b : ℕ) (h : b ∈ xs.toFinset) :
    cvCol xs xs b = cvCnt xs b := by
  unfold cvCol
  calc ∑ a ∈ xs.toFinset, cvObs xs xs a b
      = ∑ a ∈ xs.toFinset, if b = a then cvCnt xs b else 0 :=
        Finset.sum_congr rfl (fun a _ => by
          rw [cvObs_diag]
          by_cases hab : a = b
          · simp [hab]
          · rw [if_neg hab, if_neg (fun h' => hab h'.symm)])
    _ = if b ∈ xs.toFinset then cvCnt xs b else 0 :=
        Finset.sum_ite_eq xs.toFinset b (fun _ => cvCnt xs b)
    _ = cvCnt xs b := if_pos h

theorem cvTot_diag (xs : List ℕ) : cvTot xs xs = (xs.length : ℕ) := by
  unfold cvTot
  rw [List.length_zip]
  simp

theorem sum_cvCnt (xs : List ℕ) :
    ∑ a ∈ xs.toFinset, cvCnt xs a = (xs.length : ℕ) := by
  calc ∑ a ∈ xs.toFinset, cvCnt xs a
      = ∑ a ∈ xs.toFinset, ((xs.count a : ℕ) : ℚ) :=
        Finset.sum_congr rfl (fun a _ => cvCnt_eq_count xs a)
    _ = (((∑ a ∈ xs.toFinset, xs.count a : ℕ)) : ℚ) := by
        rw [Nat.cast_sum]
    _ = (xs.length : ℕ) := by
        rw [List.sum_toFinset_count_eq_length]

/-- On the diagonal (a feature crossed with itself) the uncorrected χ²
statistic equals n·(k−1). -/
theorem chi2_diag (xs : List ℕ) (hk : 3 ≤ xs.toFinset.card) :
    chi2 xs xs = (xs.length : ℚ) * ((xs.toFinset.card : ℚ) - 1) := by
  have hcond : ¬(xs.toFinset.card = 2 ∧ xs.toFinset.card = 2) := by omega
  have hne : xs ≠ [] := by
    intro h
    rw [h] at hk
    simp at hk
  have hn1 : (1 : ℚ) ≤ (xs.length : ℚ) := by
    have := List.length_pos.2 hne
    exact_mod_cast this
  have hn0 : ((xs.length : ℚ)) ≠ 0 := by linarith
  unfold chi2
  rw [if_neg hcond]
  unfold chi2Plain
  have hterm : ∀ a ∈ xs.toFinset, ∀ b ∈ xs.toFinset,
      plainTerm (cvObs xs xs a b) (cvExp xs xs a b) =
        cvCnt xs a * cvCnt xs b / (xs.length : ℚ) +
          (if a = b then (xs.length : ℚ) - 2 * cvCnt xs a else 0) := by
    intro a ha b hb
    have hca : 1 ≤ cvCnt xs a := cvCnt_pos xs a (List.mem_toFinset.1 ha)
    have hcb : 1 ≤ cvCnt xs b := cvCnt_pos xs b (List.mem_toFinset.1 hb)
    have hca0 : cvCnt xs a ≠ 0 := by linarith
    have hcb0 : cvCnt xs b ≠ 0 := by linarith
    unfold plainTerm cvExp
    rw [cvObs_diag, cvRow_diag xs a ha, cvCol_diag xs b hb, cvTot_diag]
    by_cases hab : a = b
    · subst hab
      rw [if_pos rfl, if_pos rfl]
      field_simp
      ring
    · rw [if_neg hab, if_neg hab]
      have he : (0 : ℚ) < cvCnt xs a * cvCnt xs b / (xs.length : ℚ) :=
        div_pos (mul_pos (by linarith) (by linarith)) (by linarith)
      rw [zero_sub, neg_sq, sq, mul_div_assoc, div_self (ne_of_gt he),
        mul_one, add_zero]
  calc ∑ a ∈ xs.toFinset, ∑ b ∈ xs.toFinset,
        plainTerm (cvObs xs xs a b) (cvExp xs xs a b)
      = ∑ a ∈ xs.toFinset, ∑ b ∈ xs.toFinset,
          (cvCnt xs a * cvCnt xs b / (xs.length : ℚ) +
            (if a = b then (xs.length : ℚ) - 2 * cvCnt xs a else 0)) :=
        Finset.sum_congr rfl (fun a ha => Finset.sum_congr rfl
          (fun b hb => hterm a ha b hb))
    _ = ∑ a ∈ xs.toFinset,
          ((xs.length : ℚ) - cvCnt xs a) := by
        refine Finset.sum_congr rfl (fun a ha => ?_)
        rw [Finset.sum_add_distrib,
          Finset.sum_ite_eq xs.toFinset a
            (fun _ => (xs.length : ℚ) - 2 * cvCnt xs a), if_pos ha]
        have hsum : ∑ b ∈ xs.toFinset,
            cvCnt xs a * cvCnt xs b / (xs.length : ℚ) = cvCnt xs a := by
          calc ∑ b ∈ xs.toFinset, cvCnt xs a * cvCnt xs b / (xs.length : ℚ)
              = ∑ b ∈ xs.toFinset,
                  cvCnt xs a / (xs.length : ℚ) * cvCnt xs b :=
                Finset.sum_congr rfl (fun b _ => by ring)
            _ = cvCnt xs a / (xs.length : ℚ) *
                  ∑ b ∈ xs.toFinset, cvCnt xs b :=
                (Finset.mul_sum _ _ _).symm
            _ = cvCnt xs a / (xs.length : ℚ) * (xs.length : ℚ) := by
                rw [sum_cvCnt]
            _ = cvCnt xs a := div_mul_cancel₀ _ hn0
        rw [hsum]
        ring
    _ = (xs.length : ℚ) * ((xs.toFinset.card : ℚ) - 1) := by
        rw [Finset.sum_sub_distrib, Finset.sum_const, sum_cvCnt,
          nsmul_eq_mul]
        ring

/-! #### Range of the Cramér's V entries -/

theorem sum_countP_eq_length (l : List (ℕ × ℕ)) (s : Finset (ℕ × ℕ))
    (hs : ∀ p ∈ l, p ∈ s) :
    ∑ q ∈ s, l.countP (fun p => decide (p = q)) = l.length := by
  induction l with
  | nil => simp [List.countP_nil]
  | cons x l ih =>
    have hx : x ∈ s := hs x (List.mem_cons_self x l)
    have hrest : ∀ p ∈ l, p ∈ s := fun p hp => hs p (List.mem_cons_of_mem x hp)
    calc ∑ q ∈ s, (x :: l).countP (fun p => decide (p = q))
        = ∑ q ∈ s, (l.countP (fun p => decide (p = q)) +
            if x = q then 1 else 0) := by
          refine Finset.sum_congr rfl (fun q _ => ?_)
          rw [List.countP_cons]
          congr 1
          simp
      _ = l.length + 1 := by
          rw [Finset.sum_add_distrib, ih hrest,
            Finset.sum_ite_eq s x (fun _ => 1), if_pos hx]
      _ = (x :: l).length := by rw [List.length_cons]

theorem sum_sum_cvObsN (xs ys : List ℕ) :
    ∑ a ∈ xs.toFinset, ∑ b ∈ ys.toFinset, cvObsN xs ys a b =
      (xs.zip ys).length := by
  have hs : ∀ p ∈ xs.zip ys, p ∈ xs.toFinset ×ˢ ys.toFinset := by
    intro p hp
    cases p with
    | mk u v =>
      obtain ⟨h1, h2⟩ := List.of_mem_zip hp
      exact Finset.mem_product.2 ⟨List.mem_toFinset.2 h1, List.mem_toFinset.2 h2⟩
  calc ∑ a ∈ xs.toFinset, ∑ b ∈ ys.toFinset, cvObsN xs ys a b
      = ∑ q ∈ xs.toFinset ×ˢ ys.toFinset, cvObsN xs ys q.1 q.2 :=
        (Finset.sum_product' _ _ _).symm
    _ = (xs.zip ys).length := sum_countP_eq_length (xs.zip ys) _ hs

theorem sum_sum_cvObs (xs ys : List ℕ) :
    ∑ a ∈ xs.toFinset, ∑ b ∈ ys.toFinset, cvObs xs ys a b = cvTot xs ys := by
  unfold cvObs cvTot
  rw [← sum_sum_cvObsN xs ys]
  push_cast
  rfl

theorem sum_cvRow (xs ys : List ℕ) :
    ∑ a ∈ xs.toFinset, cvRow xs ys a = cvTot xs ys := sum_sum_cvObs xs ys

theorem sum_cvCol (xs ys : List ℕ) :
    ∑ b ∈ ys.toFinset, cvCol xs ys b = cvTot xs ys := by
  unfold cvCol
  rw [Finset.sum_comm]
  exact sum_sum_cvObs xs ys

theorem cvObs_nonneg (xs ys : List ℕ) (a b : ℕ) : 0 ≤ cvObs xs ys a b := by
  unfold cvObs
  positivity

theorem cvRow_nonneg (xs ys : List ℕ) (a : ℕ) : 0 ≤ cvRow xs ys a :=
  Finset.sum_nonneg (fun b _ => cvObs_nonneg xs ys a b)

theorem cvCol_nonneg (xs ys : List ℕ) (b : ℕ) : 0 ≤ cvCol xs ys b :=
  Finset.sum_nonneg (fun a _ => cvObs_nonneg xs ys a b)

theorem cvTot_nonneg (xs ys : List ℕ) : 0 ≤ cvTot xs ys := by
  unfold cvTot
  positivity

theorem exists_zip_pair_left (xs ys : List ℕ)
    (hlen : xs.length = ys.length) (a : ℕ) (ha : a ∈ xs) :
    ∃ y, (a, y) ∈ xs.zip ys ∧ y ∈ ys := by
  induction xs generalizing ys with
  | nil => simp at ha
  | cons x t ih =>
    cases ys with
    | nil => simp at hlen
    | cons y u =>
      rcases List.mem_cons.1 ha with h' | h'
      · refine ⟨y, ?_, List.mem_cons_self y u⟩
        rw [List.zip_cons_cons, h']
        exact List.mem_cons_self (x, y) (t.zip u)
      · obtain ⟨y2, hy1, hy2⟩ := ih u (by simpa using hlen) h'
        refine ⟨y2, ?_, List.mem_cons_of_mem _ hy2⟩
        rw [List.zip_cons_cons]
        exact List.mem_cons_of_mem _ hy1

theorem cvRow_pos (xs ys : List ℕ) (hlen : xs.length = ys.length)
    (a : ℕ) (ha : a ∈ xs.toFinset) : 1 ≤ cvRow xs ys a := by
  obtain ⟨y, hpair, hy⟩ :=
    exists_zip_pair_left xs ys hlen a (List.mem_toFinset.1 ha)
  have hyB : y ∈ ys.toFinset := List.mem_toFinset.2 hy
  have h1 : 1 ≤ cvObs xs ys a y := by
    unfold cvObs cvObsN
    have hp : 0 < (xs.zip ys).countP (fun p => decide (p = (a, y))) :=
      List.countP_pos_iff.2 ⟨_, hpair, by simp⟩
    exact_mod_cast hp
  calc (1 : ℚ) ≤ cvObs xs ys a y := h1
    _ ≤ ∑ b ∈ ys.toFinset, cvObs xs ys a b :=
      Finset.single_le_sum (fun b _ => cvObs_nonneg xs ys a b) hyB

theorem cvCol_pos (xs ys : List ℕ) (hlen : xs.length = ys.length)
    (b : ℕ) (hb : b ∈ ys.toFinset) : 1 ≤ cvCol xs ys b := by
  rw [← cvRow_symm]
  exact cvRow_pos ys xs hlen.symm b hb

theorem cvObs_le_cvCol (xs ys : List ℕ) {a : ℕ} (ha : a ∈ xs.toFinset)
    (b : ℕ) : cvObs xs ys a b ≤ cvCol xs ys b :=
  Finset.single_le_sum (fun a' _ => cvObs_nonneg xs ys a' b) ha

theorem cvTot_pos (xs ys : List ℕ) (hlen : xs.length = ys.length)
    (hx : xs ≠ []) : 1 ≤ cvTot xs ys := by
  unfold cvTot
  have h1 : 0 < xs.length := List.length_pos.2 hx
  have : 0 < (xs.zip ys).length := by
    rw [List.length_zip, hlen]
    simp [min_self]
    omega
  exact_mod_cast this

theorem plainTerm_expand (o e : ℚ) (he : e ≠ 0) :
    plainTerm o e = o ^ 2 / e - 2 * o + e := by
  unfold plainTerm
  field_simp
  ring

theorem cvExp_nonneg (xs ys : List ℕ) (a b : ℕ) : 0 ≤ cvExp xs ys a b :=
  div_nonneg (mul_nonneg (cvRow_nonneg xs ys a) (cvCol_nonneg xs ys b))
    (cvTot_nonneg xs ys)

theorem plainTerm_nonneg (o e : ℚ) (he : 0 ≤ e) : 0 ≤ plainTerm o e :=
  div_nonneg (sq_nonneg _) he

theorem yatesTerm_nonneg (o e : ℚ) (he : 0 ≤ e) : 0 ≤ yatesTerm o e :=
  div_nonneg (sq_nonneg _) he

theorem chi2Plain_nonneg (xs ys : List ℕ) : 0 ≤ chi2Plain xs ys :=
  Finset.sum_nonneg (fun a _ => Finset.sum_nonneg (fun b _ =>
    plainTerm_nonneg _ _ (cvExp_nonneg xs ys a b)))

theorem chi2Yates_nonneg (xs ys : List ℕ) : 0 ≤ chi2Yates xs ys :=
  Finset.sum_nonneg (fun a _ => Finset.sum_nonneg (fun b _ =>
    yatesTerm_nonneg _ _ (cvExp_nonneg xs ys a b)))

theorem sum_sum_cvExp (xs ys : List ℕ) (hn0 : cvTot xs ys ≠ 0) :
    ∑ a ∈ xs.toFinset, ∑ b ∈ ys.toFinset, cvExp xs ys a b = cvTot xs ys := by
  unfold cvExp
  calc ∑ a ∈ xs.toFinset, ∑ b ∈ ys.toFinset,
        cvRow xs ys a * cvCol xs ys b / cvTot xs ys
      = ∑ a ∈ xs.toFinset, cvRow xs ys a := by
        refine Finset.sum_congr rfl (fun a _ => ?_)
        calc ∑ b ∈ ys.toFinset, cvRow xs ys a * cvCol xs ys b / cvTot xs ys
            = ∑ b ∈ ys.toFinset,
                cvRow xs ys a / cvTot xs ys * cvCol xs ys b :=
              Finset.sum_congr rfl (fun b _ => by ring)
          _ = cvRow xs ys a / cvTot xs ys *
                ∑ b ∈ ys.toFinset, cvCol xs ys b :=
              (Finset.mul_sum _ _ _).symm
          _ = cvRow xs ys a / cvTot xs ys * cvTot xs ys := by rw [sum_cvCol]
          _ = cvRow xs ys a := div_mul_cancel₀ _ hn0
    _ = cvTot xs ys := sum_cvRow xs ys

/-- The uncorrected χ² statistic is at most n·(r − 1). -/
theorem chi2Plain_le_left (xs ys : List ℕ) (hlen : xs.length = ys.length)
    (hx : xs ≠ []) :
    chi2Plain xs ys ≤ cvTot xs ys * ((xs.toFinset.card : ℚ) - 1) := by
  have hn1 : 1 ≤ cvTot xs ys := cvTot_pos xs ys hlen hx
  have hn0 : cvTot xs ys ≠ 0 := by linarith
  unfold chi2Plain
  have hexp : ∀ a ∈ xs.toFinset, ∀ b ∈ ys.toFinset,
      plainTerm (cvObs xs ys a b) (cvExp xs ys a b) =
        cvObs xs ys a b ^ 2 / cvExp xs ys a b - 2 * cvObs xs ys a b +
          cvExp xs ys a b := by
    intro a ha b hb
    refine plainTerm_expand _ _ (ne_of_gt ?_)
    exact div_pos (mul_pos
      (lt_of_lt_of_le zero_lt_one (cvRow_pos xs ys hlen a ha))
      (lt_of_lt_of_le zero_lt_one (cvCol_pos xs ys hlen b hb)))
      (lt_of_lt_of_le zero_lt_one hn1)
  have hS1 : ∑ a ∈ xs.toFinset, ∑ b ∈ ys.toFinset,
      cvObs xs ys a b ^ 2 / cvExp xs ys a b ≤
        (xs.toFinset.card : ℚ) * cvTot xs ys := by
    have hinner : ∀ a ∈ xs.toFinset,
        ∑ b ∈ ys.toFinset, cvObs xs ys a b ^ 2 / cvExp xs ys a b ≤
          cvTot xs ys := by
      intro a ha
      have hR : 1 ≤ cvRow xs ys a := cvRow_pos xs ys hlen a ha
      have hR0 : cvRow xs ys a ≠ 0 := by linarith
      calc ∑ b ∈ ys.toFinset, cvObs xs ys a b ^ 2 / cvExp xs ys a b
          ≤ ∑ b ∈ ys.toFinset,
              cvTot xs ys * (cvObs xs ys a b / cvRow xs ys a) := by
            refine Finset.sum_le_sum (fun b hb => ?_)
            have hC : 1 ≤ cvCol xs ys b := cvCol_pos xs ys hlen b hb
            have hC0 : cvCol xs ys b ≠ 0 := by linarith
            have hOC : cvObs xs ys a b / cvCol xs ys b ≤ 1 :=
              (div_le_one (by linarith)).2 (cvObs_le_cvCol xs ys ha b)
            have hOR : 0 ≤ cvObs xs ys a b / cvRow xs ys a :=
              div_nonneg (cvObs_nonneg xs ys a b) (by linarith)
            have hrw : cvObs xs ys a b ^ 2 / cvExp xs ys a b =
                cvTot xs ys * ((cvObs xs ys a b / cvRow xs ys a) *
                  (cvObs xs ys a b / cvCol xs ys b)) := by
              unfold cvExp
              field_simp
              ring
            rw [hrw]
            refine mul_le_mul_of_nonneg_left ?_ (by linarith)
            exact mul_le_of_le_one_right hOR hOC
        _ = cvTot xs ys * (∑ b ∈ ys.toFinset, cvObs xs ys a b) /
              cvRow xs ys a := by
            rw [Finset.mul_sum]
            rw [Finset.sum_div]
            refine Finset.sum_congr rfl (fun b _ => ?_)
            ring
        _ = cvTot xs ys := by
            rw [show ∑ b ∈ ys.toFinset, cvObs xs ys a b = cvRow xs ys a
              from rfl]
            rw [mul_div_assoc, div_self hR0, mul_one]
    calc ∑ a ∈ xs.toFinset, ∑ b ∈ ys.toFinset,
          cvObs xs ys a b ^ 2 / cvExp xs ys a b
        ≤ ∑ a ∈ xs.toFinset, cvTot xs ys :=
          Finset.sum_le_sum hinner
      _ = (xs.toFinset.card : ℚ) * cvTot xs ys := by
          rw [Finset.sum_const, nsmul_eq_mul]
  have hsplit : ∑ a ∈ xs.toFinset, ∑ b ∈ ys.toFinset,
      plainTerm (cvObs xs ys a b) (cvExp xs ys a b) =
        (∑ a ∈ xs.toFinset, ∑ b ∈ ys.toFinset,
          cvObs xs ys a b ^ 2 / cvExp xs ys a b) -
        2 * cvTot xs ys + cvTot xs ys := by
    calc ∑ a ∈ xs.toFinset, ∑ b ∈ ys.toFinset,
          plainTerm (cvObs xs ys a b) (cvExp xs ys a b)
        = ∑ a ∈ xs.toFinset, ∑ b ∈ ys.toFinset,
            (cvObs xs ys a b ^ 2 / cvExp xs ys a b -
              2 * cvObs xs ys a b + cvExp xs ys a b) :=
          Finset.sum_congr rfl (fun a ha => Finset.sum_congr rfl
            (fun b hb => hexp a ha b hb))
      _ = (∑ a ∈ xs.toFinset, ∑ b ∈ ys.toFinset,
            cvObs xs ys a b ^ 2 / cvExp xs ys a b) -
          2 * (∑ a ∈ xs.toFinset, ∑ b ∈ ys.toFinset, cvObs xs ys a b) +
          (∑ a ∈ xs.toFinset, ∑ b ∈ ys.toFinset, cvExp xs ys a b) := by
          simp only [Finset.sum_sub_distrib, Finset.sum_add_distrib,
            ← Finset.mul_sum]
      _ = _ := by rw [sum_sum_cvObs, sum_sum_cvExp xs ys hn0]
  rw [hsplit]
  have hcard1 : (1 : ℚ) ≤ (xs.toFinset.card : ℚ) := by
    have : 0 < xs.toFinset.card :=
      Finset.card_pos.2 ((List.toFinset_nonempty_iff xs).2 hx)
    exact_mod_cast this
  nlinarith [hS1]

/-- The uncorrected χ² statistic is at most n·(k − 1). -/
theorem chi2Plain_le_right (xs ys : List ℕ) (hlen : xs.length = ys.length)
    (hy : ys ≠ []) :
    chi2Plain xs ys ≤ cvTot xs ys * ((ys.toFinset.card : ℚ) - 1) := by
  rw [← chi2Plain_symm, ← cvTot_symm]
  exact chi2Plain_le_left ys xs hlen.symm hy

/-- The Yates-corrected numerator as a function of the deviation
o − e. -/
def yatesSq (x : ℚ) : ℚ := (x - qsgn x * min (1 / 2) |x|) ^ 2

theorem qsgn_neg (x : ℚ) : qsgn (-x) = -qsgn x := by
  unfold qsgn
  rcases lt_trichotomy x 0 with h | h | h
  · rw [if_neg (by linarith), if_neg (by linarith), if_pos h]
    norm_num
  · rw [h]
    norm_num
  · rw [if_pos (by linarith), if_neg (by linarith), if_neg (by linarith)]

theorem yatesTerm_eq (o e : ℚ) : yatesTerm o e = yatesSq (o - e) / e := by
  unfold yatesTerm yatesSq
  rw [show e - o = -(o - e) by ring, qsgn_neg, abs_neg]
  ring_nf

theorem yatesSq_neg (x : ℚ) : yatesSq (-x) = yatesSq x := by
  unfold yatesSq
  rw [qsgn_neg, abs_neg]
  ring

theorem yatesSq_le_sq (x : ℚ) (h : 1 / 2 ≤ |x|) : yatesSq x ≤ x ^ 2 := by
  unfold yatesSq qsgn
  rw [min_eq_left h]
  rcases lt_trichotomy x 0 with hx | hx | hx
  · rw [if_pos hx]
    have : |x| = -x := abs_of_neg hx
    nlinarith [this ▸ h]
  · rw [hx] at h ⊢
    norm_num at h
  · rw [if_neg (by linarith), if_neg (by linarith)]
    have : |x| = x := abs_of_pos hx
    nlinarith [this ▸ h]

theorem yatesSq_le_quarter (x : ℚ) (h : |x| ≤ 1 / 2) :
    yatesSq x ≤ 1 / 4 := by
  unfold yatesSq qsgn
  rw [min_eq_right h]
  rcases lt_trichotomy x 0 with hx | hx | hx
  · rw [if_pos hx, abs_of_neg hx]
    nlinarith
  · rw [if_neg (by linarith), if_pos hx]
    subst hx
    norm_num
  · rw [if_neg (by linarith), if_neg (by linarith), abs_of_pos hx]
    nlinarith

/-- On a 2×2 table the Yates-corrected χ² statistic is still at most
n·(min(r,k) − 1) = n. -/
theorem chi2Yates_le (xs ys : List ℕ) (hlen : xs.length = ys.length)
    (hx : xs ≠ []) (hr : xs.toFinset.card = 2) (hk : ys.toFinset.card = 2) :
    chi2Yates xs ys ≤ cvTot xs ys := by
  obtain ⟨a1, a2, ha, hA⟩ := Finset.card_eq_two.1 hr
  obtain ⟨b1, b2, hb, hB⟩ := Finset.card_eq_two.1 hk
  have ha1 : a1 ∈ xs.toFinset := hA ▸ Finset.mem_insert_self a1 {a2}
  have ha2 : a2 ∈ xs.toFinset :=
    hA ▸ Finset.mem_insert_of_mem (Finset.mem_singleton_self a2)
  have hb1 : b1 ∈ ys.toFinset := hB ▸ Finset.mem_insert_self b1 {b2}
  have hb2 : b2 ∈ ys.toFinset :=
    hB ▸ Finset.mem_insert_of_mem (Finset.mem_singleton_self b2)
  have hn1 : 1 ≤ cvTot xs ys := cvTot_pos xs ys hlen hx
  have hn0 : cvTot xs ys ≠ 0 := by linarith
  have hR1 : 1 ≤ cvRow xs ys a1 := cvRow_pos xs ys hlen a1 ha1
  have hR2 : 1 ≤ cvRow xs ys a2 := cvRow_pos xs ys hlen a2 ha2
  have hC1 : 1 ≤ cvCol xs ys b1 := cvCol_pos xs ys hlen b1 hb1
  have hC2 : 1 ≤ cvCol xs ys b2 := cvCol_pos xs ys hlen b2 hb2
  -- margins as sums of the four observed cells
  have hrow1 : cvRow xs ys a1 = cvObs xs ys a1 b1 + cvObs xs ys a1 b2 := by
    unfold cvRow
    rw [hB, Finset.sum_pair hb]
  have hrow2 : cvRow xs ys a2 = cvObs xs ys a2 b1 + cvObs xs ys a2 b2 := by
    unfold cvRow
    rw [hB, Finset.sum_pair hb]
  have hcol1 : cvCol xs ys b1 = cvObs xs ys a1 b1 + cvObs xs ys a2 b1 := by
    unfold cvCol
    rw [hA, Finset.sum_pair ha]
  have hcol2 : cvCol xs ys b2 = cvObs xs ys a1 b2 + cvObs xs ys a2 b2 := by
    unfold cvCol
    rw [hA, Finset.sum_pair ha]
  have hrowsum : cvRow xs ys a1 + cvRow xs ys a2 = cvTot xs ys := by
    have := sum_cvRow xs ys
    rw [hA, Finset.sum_pair ha] at this
    exact this
  have hcolsum : cvCol xs ys b1 + cvCol xs ys b2 = cvTot xs ys := by
    have := sum_cvCol xs ys
    rw [hB, Finset.sum_pair hb] at this
    exact this
  -- expected cells
  have hexp : ∀ (a b : ℕ), cvExp xs ys a b =
      cvRow xs ys a * cvCol xs ys b / cvTot xs ys := fun a b => rfl
  have hE11 : 0 < cvExp xs ys a1 b1 := by
    rw [hexp]
    exact div_pos (mul_pos (by linarith) (by linarith)) (by linarith)
  have hE12 : 0 < cvExp xs ys a1 b2 := by
    rw [hexp]
    exact div_pos (mul_pos (by linarith) (by linarith)) (by linarith)
  have hE21 : 0 < cvExp xs ys a2 b1 := by
    rw [hexp]
    exact div_pos (mul_pos (by linarith) (by linarith)) (by linarith)
  have hE22 : 0 < cvExp xs ys a2 b2 := by
    rw [hexp]
    exact div_pos (mul_pos (by linarith) (by linarith)) (by linarith)
  -- n · e = R · C for each cell
  have hprod : ∀ (a b : ℕ), cvTot xs ys * cvExp xs ys a b =
      cvRow xs ys a * cvCol xs ys b := by
    intro a b
    rw [hexp, mul_div_assoc']
    rw [mul_comm (cvTot xs ys) _, mul_div_assoc, div_self hn0, mul_one]
  -- expected-margin identities
  have hErow1 : cvExp xs ys a1 b1 + cvExp xs ys a1 b2 = cvRow xs ys a1 := by
    rw [hexp, hexp, div_add_div_same, ← mul_add, hcolsum, mul_div_assoc,
      div_self hn0, mul_one]
  have hEcol1 : cvExp xs ys a1 b1 + cvExp xs ys a2 b1 = cvCol xs ys b1 := by
    rw [hexp, hexp, div_add_div_same, ← add_mul, hrowsum, mul_comm,
      mul_div_assoc, div_self hn0, mul_one]
  have hErow2 : cvExp xs ys a2 b1 + cvExp xs ys a2 b2 = cvRow xs ys a2 := by
    rw [hexp, hexp, div_add_div_same, ← mul_add, hcolsum, mul_div_assoc,
      div_self hn0, mul_one]
  -- the four deviations are ±d
  have hd12 : cvObs xs ys a1 b2 - cvExp xs ys a1 b2 =
      -(cvObs xs ys a1 b1 - cvExp xs ys a1 b1) := by
    have h1 := hrow1
    have h2 := hErow1
    linarith
  have hd21 : cvObs xs ys a2 b1 - cvExp xs ys a2 b1 =
      -(cvObs xs ys a1 b1 - cvExp xs ys a1 b1) := by
    have h1 := hcol1
    have h2 := hEcol1
    linarith
  have hd22 : cvObs xs ys a2 b2 - cvExp xs ys a2 b2 =
      cvObs xs ys a1 b1 - cvExp xs ys a1 b1 := by
    have h1 := hrow2
    have h2 := hErow2
    linarith
  -- expand the corrected statistic over the four cells
  have hchiY : chi2Yates xs ys =
      yatesSq (cvObs xs ys a1 b1 - cvExp xs ys a1 b1) / cvExp xs ys a1 b1 +
      yatesSq (cvObs xs ys a1 b1 - cvExp xs ys a1 b1) / cvExp xs ys a1 b2 +
      yatesSq (cvObs xs ys a1 b1 - cvExp xs ys a1 b1) / cvExp xs ys a2 b1 +
      yatesSq (cvObs xs ys a1 b1 - cvExp xs ys a1 b1) / cvExp xs ys a2 b2 := by
    unfold chi2Yates
    rw [hA, hB, Finset.sum_pair ha, Finset.sum_pair hb, Finset.sum_pair hb,
      yatesTerm_eq, yatesTerm_eq, yatesTerm_eq, yatesTerm_eq,
      hd12, hd21, hd22, yatesSq_neg]
    ring
  have hchiP : chi2Plain xs ys =
      (cvObs xs ys a1 b1 - cvExp xs ys a1 b1) ^ 2 / cvExp xs ys a1 b1 +
      (cvObs xs ys a1 b1 - cvExp xs ys a1 b1) ^ 2 / cvExp xs ys a1 b2 +
      (cvObs xs ys a1 b1 - cvExp xs ys a1 b1) ^ 2 / cvExp xs ys a2 b1 +
      (cvObs xs ys a1 b1 - cvExp xs ys a1 b1) ^ 2 / cvExp xs ys a2 b2 := by
    unfold chi2Plain plainTerm
    rw [hA, hB, Finset.sum_pair ha, Finset.sum_pair hb, Finset.sum_pair hb,
      hd12, hd21, hd22, neg_sq]
    ring
  have hplain_le : chi2Plain xs ys ≤ cvTot xs ys := by
    have h := chi2Plain_le_left xs ys hlen hx
    rw [hr] at h
    norm_num at h
    exact h
  rcases le_or_lt (1 / 2)
      |cvObs xs ys a1 b1 - cvExp xs ys a1 b1| with hcase | hcase
  · -- |d| ≥ 1/2 : the corrected statistic is below the uncorrected one
    have hle := yatesSq_le_sq _ hcase
    rw [hchiY]
    calc yatesSq (cvObs xs ys a1 b1 - cvExp xs ys a1 b1) / cvExp xs ys a1 b1 +
        yatesSq (cvObs xs ys a1 b1 - cvExp xs ys a1 b1) / cvExp xs ys a1 b2 +
        yatesSq (cvObs xs ys a1 b1 - cvExp xs ys a1 b1) / cvExp xs ys a2 b1 +
        yatesSq (cvObs xs ys a1 b1 - cvExp xs ys a1 b1) / cvExp xs ys a2 b2
        ≤ (cvObs xs ys a1 b1 - cvExp xs ys a1 b1) ^ 2 / cvExp xs ys a1 b1 +
          (cvObs xs ys a1 b1 - cvExp xs ys a1 b1) ^ 2 / cvExp xs ys a1 b2 +
          (cvObs xs ys a1 b1 - cvExp xs ys a1 b1) ^ 2 / cvExp xs ys a2 b1 +
          (cvObs xs ys a1 b1 - cvExp xs ys a1 b1) ^ 2 / cvExp xs ys a2 b2 := by
          gcongr
      _ = chi2Plain xs ys := hchiP.symm
      _ ≤ cvTot xs ys := hplain_le
  · -- |d| < 1/2 : each corrected cell is at most n/4
    have hle := yatesSq_le_quarter _ (le_of_lt hcase)
    have hcell : ∀ (a b : ℕ), a ∈ xs.toFinset → b ∈ ys.toFinset →
        0 < cvExp xs ys a b →
        yatesSq (cvObs xs ys a1 b1 - cvExp xs ys a1 b1) / cvExp xs ys a b ≤
          cvTot xs ys / 4 := by
      intro a b hamem hbmem hE
      have hRC : 1 ≤ cvRow xs ys a * cvCol xs ys b := by
        have h1 := cvRow_pos xs ys hlen a hamem
        have h2 := cvCol_pos xs ys hlen b hbmem
        nlinarith
      have hinv : 1 / cvExp xs ys a b ≤ cvTot xs ys := by
        rw [div_le_iff₀ hE]
        calc (1 : ℚ) ≤ cvRow xs ys a * cvCol xs ys b := hRC
          _ = cvTot xs ys * cvExp xs ys a b := (hprod a b).symm
      have hg0 : 0 ≤ yatesSq (cvObs xs ys a1 b1 - cvExp xs ys a1 b1) :=
        sq_nonneg _
      calc yatesSq (cvObs xs ys a1 b1 - cvExp xs ys a1 b1) / cvExp xs ys a b
          = yatesSq (cvObs xs ys a1 b1 - cvExp xs ys a1 b1) *
              (1 / cvExp xs ys a b) := by ring
        _ ≤ (1 / 4) * cvTot xs ys := by
            refine mul_le_mul hle hinv ?_ (by norm_num)
            positivity
        _ = cvTot xs ys / 4 := by ring
    rw [hchiY]
    have h11 := hcell a1 b1 ha1 hb1 hE11
    have h12 := hcell a1 b2 ha1 hb2 hE12
    have h21 := hcell a2 b1 ha2 hb1 hE21
    have h22 := hcell a2 b2 ha2 hb2 hE22
    linarith

/-- The χ² statistic never exceeds n·(min(r, k) − 1), with or without
the continuity correction. -/
theorem chi2_le_min (xs ys : List ℕ) (hlen : xs.length = ys.length)
    (hx : xs ≠ []) (hy : ys ≠ []) :
    chi2 xs ys ≤ cvTot xs ys *
      (((min xs.toFinset.card ys.toFinset.card : ℕ) : ℚ) - 1) := by
  unfold chi2
  by_cases hc : xs.toFinset.card = 2 ∧ ys.toFinset.card = 2
  · rw [if_pos hc, hc.1, hc.2]
    norm_num
    exact chi2Yates_le xs ys hlen hx hc.1 hc.2
  · rw [if_neg hc]
    rcases min_choice xs.toFinset.card ys.toFinset.card with hmin | hmin
    · rw [hmin]
      exact chi2Plain_le_left xs ys hlen hx
    · rw [hmin]
      exact chi2Plain_le_right xs ys hlen hy

theorem chi2_nonneg (xs ys : List ℕ) : 0 ≤ chi2 xs ys := by
  unfold chi2
  split
  · exact chi2Yates_nonneg xs ys
  · exact chi2Plain_nonneg xs ys

/-- Every defined cramers_v value lies in [0, 1]. -/
theorem cramersV_mem_unit (xs ys : List ℕ) (hlen : xs.length = ys.length)
    (x : ℝ) (hsome : cramersV xs ys = some x) : 0 ≤ x ∧ x ≤ 1 := by
  unfold cramersV at hsome
  by_cases hden : cvTot xs ys *
      (((min xs.toFinset.card ys.toFinset.card : ℕ) : ℚ) - 1) = 0
  · rw [if_pos hden] at hsome
    exact absurd hsome (by simp)
  · rw [if_neg hden] at hsome
    have hxval : x = Real.sqrt ((cramersVsq xs ys : ℚ) : ℝ) :=
      (Option.some.inj hsome).symm
    have hn0 : cvTot xs ys ≠ 0 := by
      intro h
      exact hden (by rw [h, zero_mul])
    have hnpos : 0 < cvTot xs ys :=
      lt_of_le_of_ne (cvTot_nonneg xs ys) (Ne.symm hn0)
    have hzip : 0 < (xs.zip ys).length := by
      have : (0 : ℚ) < ((xs.zip ys).length : ℕ) := hnpos
      exact_mod_cast this
    have hxne : xs ≠ [] := by
      intro h
      rw [h] at hzip
      simp at hzip
    have hyne : ys ≠ [] := by
      intro h
      rw [h] at hzip
      simp [List.zip_nil_right] at hzip
    have hminpos : 1 ≤ min xs.toFinset.card ys.toFinset.card := by
      have h1 : 0 < xs.toFinset.card :=
        Finset.card_pos.2 ((List.toFinset_nonempty_iff xs).2 hxne)
      have h2 : 0 < ys.toFinset.card :=
        Finset.card_pos.2 ((List.toFinset_nonempty_iff ys).2 hyne)
      omega
    have hminne : min xs.toFinset.card ys.toFinset.card ≠ 1 := by
      intro h
      apply hden
      rw [h]
      norm_num
    have hmin2 : 2 ≤ min xs.toFinset.card ys.toFinset.card := by omega
    have hminq : (1 : ℚ) ≤
        ((min xs.toFinset.card ys.toFinset.card : ℕ) : ℚ) - 1 := by
      have : (2 : ℚ) ≤ ((min xs.toFinset.card ys.toFinset.card : ℕ) : ℚ) := by
        exact_mod_cast hmin2
      linarith
    have hdenpos : 0 < cvTot xs ys *
        (((min xs.toFinset.card ys.toFinset.card : ℕ) : ℚ) - 1) :=
      mul_pos hnpos (by linarith)
    have hVsq1 : cramersVsq xs ys ≤ 1 := by
      unfold cramersVsq
      rw [div_le_one hdenpos]
      exact chi2_le_min xs ys hlen hxne hyne
    have hVsq0 : 0 ≤ cramersVsq xs ys :=
      div_nonneg (chi2_nonneg xs ys) (le_of_lt hdenpos)
    constructor
    · rw [hxval]
      exact Real.sqrt_nonneg _
    · rw [hxval]
      rw [Real.sqrt_le_one]
      exact_mod_cast hVsq1

/-- For a feature with at least three observed categories, the diagonal
cramers_v value is exactly 1. -/
theorem cramersV_diag (xs : List ℕ) (hk : 3 ≤ xs.toFinset.card) :
    cramersV xs xs = some 1 := by
  have hne : xs ≠ [] := by
    intro h
    rw [h] at hk
    simp at hk
  have hn1 : (1 : ℚ) ≤ (xs.length : ℚ) := by
    have := List.length_pos.2 hne
    exact_mod_cast this
  have hkq : (3 : ℚ) ≤ (xs.toFinset.card : ℚ) := by exact_mod_cast hk
  have hden : cvTot xs xs *
      (((min xs.toFinset.card xs.toFinset.card : ℕ) : ℚ) - 1) ≠ 0 := by
    rw [min_self, cvTot_diag]
    have h1 : (0 : ℚ) < (xs.length : ℚ) := by linarith
    have h2 : (0 : ℚ) < (xs.toFinset.card : ℚ) - 1 := by linarith
    positivity
  unfold cramersV
  rw [if_neg hden]
  have hVsq : cramersVsq xs xs = 1 := by
    unfold cramersVsq
    rw [chi2_diag xs hk, min_self, cvTot_diag]
    rw [div_self]
    have h1 : (0 : ℚ) < (xs.length : ℚ) := by linarith
    have h2 : (0 : ℚ) < (xs.toFinset.card : ℚ) - 1 := by linarith
    positivity
  rw [hVsq]
  norm_num

/-- Label encoding preserves the number of distinct observed values. -/
theorem encNat_toFinset_card (col : List Val) :
    (encNat col).toFinset.card = col.dedup.length := by
  unfold encNat
  have hmap : (col.map (fun v => (sortedCats col).indexOf v)).toFinset =
      col.toFinset.image (fun v => (sortedCats col).indexOf v) := by
    ext x
    simp
  rw [hmap]
  have hinj : Set.InjOn (fun v => (sortedCats col).indexOf v)
      ↑col.toFinset := by
    intro u hu v hv huv
    have hu' : u ∈ sortedCats col :=
      mem_sortedCats (List.mem_toFinset.1 (by simpa using hu))
    have hv' : v ∈ sortedCats col :=
      mem_sortedCats (List.mem_toFinset.1 (by simpa using hv))
    exact (List.indexOf_inj hu' hv').1 huv
  rw [Finset.card_image_of_injOn hinj, List.card_toFinset]

theorem encNat_length (col : List Val) : (encNat col).length = col.length :=
  List.length_map col _

/-! #### The Yates correction breaks the diagonal for binary features -/

theorem chi2Yates_01 : chi2Yates [0, 1] [0, 1] = 0 := by
  have hts : ([0, 1] : List ℕ).toFinset = {0, 1} := by decide
  have h00 : cvObs [0, 1] [0, 1] 0 0 = 1 := by
    unfold cvObs
    norm_num [show cvObsN [0, 1] [0, 1] 0 0 = 1 from rfl]
  have h01 : cvObs [0, 1] [0, 1] 0 1 = 0 := by
    unfold cvObs
    norm_num [show cvObsN [0, 1] [0, 1] 0 1 = 0 from rfl]
  have h10 : cvObs [0, 1] [0, 1] 1 0 = 0 := by
    unfold cvObs
    norm_num [show cvObsN [0, 1] [0, 1] 1 0 = 0 from rfl]
  have h11 : cvObs [0, 1] [0, 1] 1 1 = 1 := by
    unfold cvObs
    norm_num [show cvObsN [0, 1] [0, 1] 1 1 = 1 from rfl]
  have hr0 : cvRow [0, 1] [0, 1] 0 = 1 := by
    unfold cvRow
    rw [hts, Finset.sum_insert (by decide), Finset.sum_singleton, h00, h01]
    norm_num
  have hr1 : cvRow [0, 1] [0, 1] 1 = 1 := by
    unfold cvRow
    rw [hts, Finset.sum_insert (by decide), Finset.sum_singleton, h10, h11]
    norm_num
  have hc0 : cvCol [0, 1] [0, 1] 0 = 1 := by
    unfold cvCol
    rw [hts, Finset.sum_insert (by decide), Finset.sum_singleton, h00, h10]
    norm_num
  have hc1 : cvCol [0, 1] [0, 1] 1 = 1 := by
    unfold cvCol
    rw [hts, Finset.sum_insert (by decide), Finset.sum_singleton, h01, h11]
    norm_num
  have htot : cvTot [0, 1] [0, 1] = 2 := by
    unfold cvTot
    norm_num
  have he00 : cvExp [0, 1] [0, 1] 0 0 = 1 / 2 := by
    unfold cvExp
    rw [hr0, hc0, htot]
    norm_num
  have he01 : cvExp [0, 1] [0, 1] 0 1 = 1 / 2 := by
    unfold cvExp
    rw [hr0, hc1, htot]
    norm_num
  have he10 : cvExp [0, 1] [0, 1] 1 0 = 1 / 2 := by
    unfold cvExp
    rw [hr1, hc0, htot]
    norm_num
  have he11 : cvExp [0, 1] [0, 1] 1 1 = 1 / 2 := by
    unfold cvExp
    rw [hr1, hc1, htot]
    norm_num
  unfold chi2Yates
  rw [hts, Finset.sum_insert (by decide), Finset.sum_singleton,
    Finset.sum_insert (by decide), Finset.sum_singleton,
    Finset.sum_insert (by decide), Finset.sum_singleton,
    h00, h01, h10, h11, he00, he01, he10, he11]
  unfold yatesTerm qsgn
  norm_num
  rw [show |(1 : ℚ) / 2| = 1 / 2 from abs_of_pos (by norm_num), min_self]
  norm_num

theorem cramersV_01 : cramersV [0, 1] [0, 1] = some 0 := by
  have hcard : ([0, 1] : List ℕ).toFinset.card = 2 := by decide
  have htot : cvTot [0, 1] [0, 1] = 2 := by
    unfold cvTot
    norm_num
  have hden : cvTot [0, 1] [0, 1] *
      (((min ([0, 1] : List ℕ).toFinset.card
        ([0, 1] : List ℕ).toFinset.card : ℕ) : ℚ) - 1) ≠ 0 := by
    rw [htot, hcard]
    norm_num
  unfold cramersV
  rw [if_neg hden]
  have hVsq : cramersVsq [0, 1] [0, 1] = 0 := by
    unfold cramersVsq chi2
    rw [if_pos ⟨hcard, hcard⟩, chi2Yates_01]
    norm_num
  rw [hVsq]
  norm_num

/-- Counterexample to claim C2 as stated: on the table with features
`A = [x, y]` and `B = [u, v]` the diagonal entry for the binary
feature `A` is 0, not 1 — `chi2_contingency` applies the Yates
continuity correction on the 2×2 table of `A` against itself, driving
the statistic to zero. -/
theorem C2_cramers_v_matrix_counterexample :
    (cramersVEntry
      [("A", [Val.str "x", Val.str "y"]), ("B", [Val.str "u", Val.str "v"])]
      "A" "A" = some 0) ∧
    (cramersVEntry
      [("A", [Val.str "x", Val.str "y"]), ("B", [Val.str "u", Val.str "v"])]
      "A" "A" ≠ some 1) := by
  have henc : encNat (Table.getCol
      [("A", [Val.str "x", Val.str "y"]), ("B", [Val.str "u", Val.str "v"])]
      "A") = [0, 1] := by decide
  constructor
  · unfold cramersVEntry
    rw [henc, cramersV_01]
  · unfold cramersVEntry
    rw [henc, cramersV_01]
    intro h
    have : (0 : ℝ) = 1 := Option.some.inj h
    norm_num at this

/-- Claim C2 (amended): for any two configured features with aligned
columns, the Cramér's V matrix is symmetric and every defined entry
lies in [0, 1]; the diagonal entry of a feature equals 1 whenever the
feature has at least three distinct observed categories.  (As the
counterexample shows, a binary feature's diagonal entry can be below 1
because of the Yates continuity correction on its 2×2 self-crosstab;
a single-category feature's entry has a zero normalizer and is
NaN/undefined, modelled as `none`.) -/
theorem C2_cramers_v_matrix (df : Table) (f g : String)
    (hlen : (df.getCol f).length = (df.getCol g).length) :
    (cramersVEntry df f g = cramersVEntry df g f) ∧
    (3 ≤ (df.getCol f).dedup.length → cramersVEntry df f f = some 1) ∧
    (∀ x : ℝ, cramersVEntry df f g = some x → 0 ≤ x ∧ x ≤ 1) := by
  refine ⟨cramersV_symm _ _, ?_, ?_⟩
  · intro h3
    unfold cramersVEntry
    exact cramersV_diag _ (by rw [encNat_toFinset_card]; exact h3)
  · intro x hx
    exact cramersV_mem_unit _ _
      (by rw [encNat_length, encNat_length, hlen]) x hx

/-- Witness for the amended C2 at a concrete table: feature `A` has
three categories, so its diagonal entry is 1, and the `(A, B)` entry
is symmetric. -/
theorem C2_cramers_v_matrix_witness :
    (cramersVEntry
      [("A", [Val.str "x", Val.str "y", Val.str "z"]),
       ("B", [Val.str "u", Val.str "v", Val.str "u"])] "A" "B" =
      cramersVEntry
      [("A", [Val.str "x", Val.str "y", Val.str "z"]),
       ("B", [Val.str "u", Val.str "v", Val.str "u"])] "B" "A") ∧
    (cramersVEntry
      [("A", [Val.str "x", Val.str "y", Val.str "z"]),
       ("B", [Val.str "u", Val.str "v", Val.str "u"])] "A" "A" = some 1) := by
  have h := C2_cramers_v_matrix
    [("A", [Val.str "x", Val.str "y", Val.str "z"]),
     ("B", [Val.str "u", Val.str "v", Val.str "u"])] "A" "B" (by decide)
  exact ⟨h.1, h.2.1 (by decide)⟩

end BigMart
